import Mathlib

/-!
# Verification of the McBeeDataExtractor breeding-graph consolidation engine

Shallow embedding of the consolidation engine (`buildBreedingPairsJsonc` and
`checkIfInManualMutations` in the output builder), the shortest-path builder
(`buildShortestPathMutations` in `shortest_path_builder.js`), and the MagicBees
parser's identifier-normalization helpers.

Modelling conventions:
* JavaScript numbers are modelled as exact rationals (`ℚ`).  All chance values
  flowing through the engine are small decimal fractions for which float64
  arithmetic is exact enough that equality/tolerance comparisons agree with `ℚ`.
* JavaScript objects used as string-keyed records with insertion order are
  modelled as association lists `List (String × β)`; `Map`/`Set` are modelled
  the same way (insertion-ordered, membership by key).
* `undefined`/`null` are modelled with `Option`.
* The one place the engine can throw (pushing onto a `requirements` array that
  a manual override entry does not have) is modelled with `Except String`.
-/

namespace McBee

/-- A JSON-ish value that can appear as a condition value in a mutation's
`conditions` object (arrays of strings, strings, numbers, booleans). -/
inductive CondValue where
  | str (s : String)
  | num (q : ℚ)
  | bool (b : Bool)
  | arr (xs : List String)
deriving DecidableEq, Repr

/-- JavaScript truthiness of a condition value (`""`, `0`, `false` are falsy;
every array, including `[]`, is truthy). -/
def CondValue.truthy : CondValue → Bool
  | .str s => !s.isEmpty
  | .num q => decide (q ≠ 0)
  | .bool b => b
  | .arr _ => true

/-- A `conditions` object: insertion-ordered key/value pairs.  JS objects have
unique keys; lookups take the first binding. -/
abbrev Conditions := List (String × CondValue)

/-- Property access `conditions[key]` (first binding wins, as in a JS object). -/
def lookupCond (conds : Conditions) (k : String) : Option CondValue :=
  (conds.find? (fun p => p.1 = k)).map (·.2)

/-- `if (conditions.key)`: the property exists and is truthy. -/
def condTruthy (conds : Conditions) (k : String) : Bool :=
  match lookupCond conds k with
  | some v => v.truthy
  | none => false

/-- An intermediate-format mutation record as produced by the parsers.
`parent1`/`parent2`/`offspring` may be `null`/`undefined` (unresolved
references), modelled as `none`; `chance` is a percentage in `[0,100]`. -/
structure Mutation where
  parent1 : Option String
  parent2 : Option String
  offspring : Option String
  chance : ℚ
  conditions : Option Conditions
deriving DecidableEq, Repr

/-- A requirement record (`mutationEntry` in the source): the selectively
copied recognized condition fields plus the optional `chance` override.
Field order mirrors the fixed assignment order in the source, so structural
equality of this record corresponds to `JSON.stringify` equality of the
JS objects the builder creates. -/
structure Requirement where
  temperature : Option CondValue := none
  humidity : Option CondValue := none
  biome : Option CondValue := none
  dateRange : Option CondValue := none
  timeOfDay : Option CondValue := none
  block : Option CondValue := none
  moonPhase : Option CondValue := none
  moonPhaseBonus : Option CondValue := none
  thaumcraftVis : Option CondValue := none
  requireExplosion : Option Bool := none
  requirePlayer : Option CondValue := none
  dimension : Option CondValue := none
  isSecret : Option Bool := none
  chance : Option ℚ := none
deriving DecidableEq, Repr

/-- A `children[species]` record: default chance and the optional
`requirements` array (`none` models an absent property). -/
structure ChildData where
  chance : ℚ
  requirements : Option (List Requirement) := none
deriving DecidableEq, Repr

/-- A mutation Group: `{parents: [...], children: {species: childData}}`. -/
structure Group where
  parents : List String
  children : List (String × ChildData)
deriving DecidableEq, Repr

/-- A skip diagnostic `{offspring, inManual}`. -/
structure SkipDiag where
  offspring : Option String
  inManual : Bool
deriving DecidableEq, Repr

instance instDecEqExceptStr {ε α : Type} [DecidableEq ε] [DecidableEq α] :
    DecidableEq (Except ε α)
  | .ok a, .ok b =>
    if h : a = b then isTrue (by rw [h])
    else isFalse (by intro hc; cases hc; exact h rfl)
  | .ok _, .error _ => isFalse (by intro h; cases h)
  | .error _, .ok _ => isFalse (by intro h; cases h)
  | .error e, .error f =>
    if h : e = f then isTrue (by rw [h])
    else isFalse (by intro hc; cases hc; exact h rfl)

/-! ## Association-list helpers with JS `Map`/object semantics -/

/-- `map.has(k)` / `k in obj`. -/
def assocHas {β : Type} (m : List (String × β)) (k : String) : Bool :=
  m.any (fun p => p.1 = k)

/-- `map.get(k)` / `obj[k]`. -/
def assocGet {β : Type} (m : List (String × β)) (k : String) : Option β :=
  (m.find? (fun p => p.1 = k)).map (·.2)

/-- `map.set(k, v)` / `obj[k] = v`: replace in place keeping the key's
position, else append. -/
def assocSet {β : Type} (m : List (String × β)) (k : String) (v : β) :
    List (String × β) :=
  if m.any (fun p => p.1 = k) then
    m.map (fun p => if p.1 = k then (k, v) else p)
  else m ++ [(k, v)]

/-! ## String helpers mirroring the JS operations

JS string comparison, splitting and trimming are re-implemented structurally
over the character list (the Lean built-ins use byte positions and
well-founded recursion, which the kernel cannot evaluate). -/

/-- Strict lexicographic comparison of character lists by code point —
exactly JS's code-unit string ordering for the BMP identifiers used here. -/
def charListLt : List Char → List Char → Bool
  | [], [] => false
  | [], _ :: _ => true
  | _ :: _, [] => false
  | a :: as, b :: bs =>
    if a.toNat < b.toNat then true
    else if b.toNat < a.toNat then false
    else charListLt as bs

/-- Non-strict lexicographic comparison of character lists. -/
def charListLe : List Char → List Char → Bool
  | [], _ => true
  | _ :: _, [] => false
  | a :: as, b :: bs =>
    if a.toNat < b.toNat then true
    else if b.toNat < a.toNat then false
    else charListLe as bs

/-- JS `a < b` on strings. -/
def jsStrLt (a b : String) : Bool := charListLt a.data b.data

/-- JS `a <= b` on strings. -/
def jsStrLe (a b : String) : Bool := charListLe a.data b.data

/-- Insert into a sorted list, before the first element `x` compares
less-or-equal to (the stable insertion-sort step). -/
def insertSorted {α : Type} (le : α → α → Bool) (x : α) : List α → List α
  | [] => [x]
  | y :: ys => if le x y then x :: y :: ys else y :: insertSorted le x ys

/-- Stable insertion sort with a boolean comparator — the model of JS
`Array.prototype.sort` (stable since ES2019). -/
def sortByLe {α : Type} (le : α → α → Bool) (l : List α) : List α :=
  l.foldr (insertSorted le) []

/-- JS `Array.prototype.sort()` on string arrays (default comparator =
code-unit lexicographic). -/
def jsSortStrings (l : List String) : List String :=
  sortByLe jsStrLe l

/-- JS `s.split(sep)` for a single-character separator, accumulator form. -/
def splitOnCharAux (sep : Char) : List Char → List Char → List (List Char)
  | [], acc => [acc.reverse]
  | c :: cs, acc =>
    if c = sep then acc.reverse :: splitOnCharAux sep cs []
    else splitOnCharAux sep cs (c :: acc)

/-- JS `s.split(sep)` for a single-character separator. -/
def jsSplit (s : String) (sep : Char) : List String :=
  (splitOnCharAux sep s.data []).map List.asString

/-- A JS whitespace character (the forms that occur in the inputs). -/
def isWsChar (c : Char) : Bool :=
  c = ' ' || c = '\t' || c = '\n' || c = '\r'

/-- JS `s.trim()`. -/
def jsTrim (s : String) : String :=
  (((s.data.dropWhile isWsChar).reverse.dropWhile isWsChar).reverse).asString

/-- `arr.join("|")`. -/
def joinPipe (l : List String) : String :=
  String.intercalate "|" l

/-- `arr.join(",")`. -/
def joinComma (l : List String) : String :=
  String.intercalate "," l

/-- Fuel-driven Euclidean algorithm (structurally recursive, so the kernel
can evaluate it, unlike `Nat.gcd`'s well-founded recursion). -/
def gcdFuel : ℕ → ℕ → ℕ → ℕ
  | _, 0, y => y
  | 0, _ + 1, _ => 0
  | f + 1, x + 1, y => gcdFuel f (y % (x + 1)) (x + 1)

/-- Kernel-computable `Nat.gcd`. -/
def natGcd (x y : ℕ) : ℕ := gcdFuel x x y

theorem gcdFuel_eq (f : ℕ) : ∀ x y : ℕ, x ≤ f → gcdFuel f x y = Nat.gcd x y := by
  induction f with
  | zero =>
    intro x y hx
    interval_cases x
    simp [gcdFuel]
  | succ f ih =>
    intro x y hx
    match x with
    | 0 => simp [gcdFuel]
    | x + 1 =>
      show gcdFuel f (y % (x + 1)) (x + 1) = Nat.gcd (x + 1) y
      rw [ih (y % (x + 1)) (x + 1) (by
        have := Nat.mod_lt y (show 0 < x + 1 by omega)
        omega)]
      exact (Nat.gcd_rec (x + 1) y).symm

theorem natGcd_eq (x y : ℕ) : natGcd x y = Nat.gcd x y :=
  gcdFuel_eq x x y le_rfl

/-- The reduced fraction `n / d` built with an explicit kernel-computable
gcd. -/
def reduceFrac (n : ℤ) (d : ℕ) (hd : d ≠ 0) : ℚ :=
  ⟨n / (natGcd n.natAbs d : ℤ), d / natGcd n.natAbs d,
    by
      have hdvd : natGcd n.natAbs d ∣ d := by
        rw [natGcd_eq]; exact Nat.gcd_dvd_right _ _
      have hg : natGcd n.natAbs d ≠ 0 := by
        rw [natGcd_eq]
        have := Nat.gcd_pos_of_pos_right (m := n.natAbs) (Nat.pos_of_ne_zero hd)
        omega
      exact (Nat.div_ne_zero_iff_of_dvd hdvd).mpr ⟨hd, hg⟩
    , by
      have hgpos : 0 < Nat.gcd n.natAbs d :=
        Nat.gcd_pos_of_pos_right _ (Nat.pos_of_ne_zero hd)
      have hdvdn : ((natGcd n.natAbs d : ℕ) : ℤ) ∣ n := by
        rw [natGcd_eq]
        exact Int.natCast_dvd_natCast.mpr (Nat.gcd_dvd_left _ _) |>.trans
          (Int.natAbs_dvd.mpr dvd_rfl)
      have habs : (n / ((natGcd n.natAbs d : ℕ) : ℤ)).natAbs =
          n.natAbs / natGcd n.natAbs d := by
        rw [Int.natAbs_ediv _ _ hdvdn]
        simp
      rw [habs, natGcd_eq]
      exact Nat.coprime_div_gcd_div_gcd hgpos⟩

theorem reduceFrac_eq (n : ℤ) (d : ℕ) (hd : d ≠ 0) :
    reduceFrac n d hd = (n : ℚ) / (d : ℚ) := by
  unfold reduceFrac
  rw [Rat.mk'_eq_divInt]
  have hgpos : 0 < Nat.gcd n.natAbs d :=
    Nat.gcd_pos_of_pos_right _ (Nat.pos_of_ne_zero hd)
  have hdvdn : ((natGcd n.natAbs d : ℕ) : ℤ) ∣ n := by
    rw [natGcd_eq]
    exact Int.natCast_dvd_natCast.mpr (Nat.gcd_dvd_left _ _) |>.trans
      (Int.natAbs_dvd.mpr dvd_rfl)
  have hdvdd : natGcd n.natAbs d ∣ d := by
    rw [natGcd_eq]; exact Nat.gcd_dvd_right _ _
  have h1 : n / ((natGcd n.natAbs d : ℕ) : ℤ) * ((natGcd n.natAbs d : ℕ) : ℤ) = n :=
    Int.ediv_mul_cancel hdvdn
  have h2 : (d / natGcd n.natAbs d) * natGcd n.natAbs d = d :=
    Nat.div_mul_cancel hdvdd
  have hgz : ((natGcd n.natAbs d : ℕ) : ℤ) ≠ 0 := by
    rw [natGcd_eq]
    exact_mod_cast hgpos.ne'
  calc Rat.divInt (n / ((natGcd n.natAbs d : ℕ) : ℤ))
        ((d / natGcd n.natAbs d : ℕ) : ℤ)
      = Rat.divInt (n / ((natGcd n.natAbs d : ℕ) : ℤ) * ((natGcd n.natAbs d : ℕ) : ℤ))
        (((d / natGcd n.natAbs d : ℕ) : ℤ) * ((natGcd n.natAbs d : ℕ) : ℤ)) :=
        (Rat.divInt_mul_right hgz).symm
    _ = Rat.divInt n (d : ℤ) := by
        rw [h1]
        congr 1
        exact_mod_cast h2
    _ = (n : ℚ) / (d : ℚ) := by
        rw [Rat.divInt_eq_div]
        norm_num

/-- `chance / 100` (the normalized chance), computed as an explicitly reduced
fraction so that the kernel can evaluate it; `div100_eq` proves it is exactly
division by `100`. -/
def div100 (q : ℚ) : ℚ :=
  reduceFrac q.num (q.den * 100) (by have := q.den_nz; positivity)

theorem div100_eq (q : ℚ) : div100 q = q / 100 := by
  unfold div100
  rw [reduceFrac_eq]
  conv_rhs => rw [← Rat.num_div_den q]
  rw [div_div]
  push_cast
  ring_nf

/-- `Math.abs(a - b) > 0.0001`, computed by integer cross-multiplication so
the kernel can evaluate it; `chanceDiffers_iff` proves it is exactly the
source's tolerance comparison. -/
def chanceDiffers (a b : ℚ) : Bool :=
  decide ((a.den : ℕ) * b.den < 10000 * (a.num * (b.den : ℤ) - b.num * (a.den : ℤ)).natAbs)

theorem chanceDiffers_iff (a b : ℚ) :
    chanceDiffers a b = true ↔ |a - b| > 1 / 10000 := by
  unfold chanceDiffers
  rw [decide_eq_true_iff]
  have ha : (0 : ℚ) < (a.den : ℚ) := by exact_mod_cast a.pos
  have hb : (0 : ℚ) < (b.den : ℚ) := by exact_mod_cast b.pos
  have hna : (a.num : ℚ) = a * a.den := by
    exact (div_eq_iff (by exact_mod_cast a.den_nz)).mp (Rat.num_div_den a)
  have hnb : (b.num : ℚ) = b * b.den := by
    exact (div_eq_iff (by exact_mod_cast b.den_nz)).mp (Rat.num_div_den b)
  have key : a - b = ((a.num * (b.den : ℤ) - b.num * (a.den : ℤ) : ℤ) : ℚ) /
      ((a.den * b.den : ℕ) : ℚ) := by
    rw [eq_div_iff (by positivity)]
    push_cast
    rw [hna, hnb]
    ring
  rw [gt_iff_lt, key, abs_div,
    abs_of_pos (show (0:ℚ) < ((a.den * b.den : ℕ) : ℚ) by positivity)]
  rw [div_lt_div_iff₀ (by norm_num) (by positivity)]
  rw [show |((a.num * (b.den : ℤ) - b.num * (a.den : ℤ) : ℤ) : ℚ)| =
    (((a.num * (b.den : ℤ) - b.num * (a.den : ℤ)).natAbs : ℕ) : ℚ) by
      rw [Int.cast_natAbs]
      push_cast
      rfl]
  constructor
  · intro h
    have h' : ((a.den * b.den : ℕ) : ℚ) <
        (10000 : ℚ) * (((a.num * (b.den : ℤ) - b.num * (a.den : ℤ)).natAbs : ℕ) : ℚ) := by
      exact_mod_cast h
    push_cast at h' ⊢
    linarith
  · intro h
    have h' : ((a.den * b.den : ℕ) : ℚ) <
        (10000 : ℚ) * (((a.num * (b.den : ℤ) - b.num * (a.den : ℤ)).natAbs : ℕ) : ℚ) := by
      push_cast at h ⊢
      linarith
    exact_mod_cast h'

/-- `String(q)`: a deterministic injective rendering of a JS number.  The
engine only ever compares these strings for equality, so the textual format
(`num/den` instead of decimal) is irrelevant. -/
def qToString (q : ℚ) : String :=
  toString q.num ++ "/" ++ toString q.den

/-- `JSON.stringify` of a scalar condition value (the engine's inputs contain
no characters that JSON would escape, so string quoting is plain). -/
def CondValue.stringifyScalar : CondValue → String
  | .str s => "\"" ++ s ++ "\""
  | .num q => qToString q
  | .bool b => if b then "true" else "false"
  | .arr xs => joinComma xs

/-- `serializeConditions` (output builder): drop if empty; else sort condition
names, render each value — arrays sorted then comma-joined, scalars
JSON-encoded — as `name=value` joined by `|` with a leading `|`. -/
def serializeConditions (conds : Option Conditions) : String :=
  match conds with
  | none => ""
  | some cs =>
    if cs.isEmpty then ""
    else
      let sortedKeys := jsSortStrings (cs.map Prod.fst)
      let parts := sortedKeys.map (fun k =>
        match lookupCond cs k with
        | some (.arr xs) => k ++ "=" ++ joinComma (jsSortStrings xs)
        | some v => k ++ "=" ++ v.stringifyScalar
        | none => k ++ "=undefined")
      "|" ++ joinPipe parts

/-- JS ASCII lower-casing of one character (the identifiers flowing through
the engine are ASCII, where `toLowerCase` is exactly this map). -/
def jsToLowerChar (c : Char) : Char :=
  if 65 ≤ c.toNat ∧ c.toNat ≤ 90 then Char.ofNat (c.toNat + 32) else c

/-- `s.toLowerCase()` on ASCII strings. -/
def jsToLower (s : String) : String :=
  (s.data.map jsToLowerChar).asString

/-- `name.replace(/[_\s]+/g, "")`: remove underscores and whitespace. -/
def stripUnderscoreSpace (s : String) : String :=
  (s.data.filter (fun c =>
    !(c = '_' || c = ' ' || c = '\t' || c = '\n' || c = '\r'))).asString

/-- JS falsiness of an optional identifier (`undefined`, `null`, `""`). -/
def falsyId : Option String → Bool
  | none => true
  | some s => s.isEmpty

/-! ## `checkIfInManualMutations` (output builder) -/

/-- `tryResolve` inside `checkIfInManualMutations`: identifiers already in
`mod:name` form are normalized to lowercase with `[_\s]+` stripped from the
name part; anything else resolves to `null`. -/
def tryResolve (identifier : Option String) : Option String :=
  match identifier with
  | none => none
  | some s =>
    if s.isEmpty then none
    else if s.data.contains ':' then
      let parts := jsSplit s ':'
      let mod := (parts.get? 0).getD ""
      let name := (parts.get? 1).getD ""
      some (jsToLower mod ++ ":" ++ stripUnderscoreSpace (jsToLower name))
    else none

/-- `checkIfInManualMutations`: the offspring resolves and some indexed manual
mutation key (format `parent1|parent2|offspring|chance`) has the same
offspring component. -/
def checkIfInManualMutations (m : Mutation) (manualMutationSet : List String) :
    Bool :=
  match tryResolve m.offspring with
  | none => false
  | some offspring =>
    manualMutationSet.any (fun key =>
      let parts := jsSplit key '|'
      decide (3 ≤ parts.length) && ((parts.get? 2).getD "" = offspring))

/-! ## Consolidation: `buildBreedingPairsJsonc` -/

/-- The recognized condition vocabulary copied into a requirement record. -/
def recognizedConditionKeys : List String :=
  ["temperature", "humidity", "biome", "dateRange", "timeOfDay", "block",
   "requiredBlock", "moonPhase", "moonPhaseBonus", "thaumcraftVis",
   "requireExplosion", "requirePlayer", "dimension", "isSecret"]

/-- Selective copy of recognized, truthy condition fields into a requirement
record (the body of the `if (mutation.conditions && ...)` block). -/
def condFields (cs : Conditions) : Requirement :=
  { temperature := if condTruthy cs "temperature" then lookupCond cs "temperature" else none
    humidity := if condTruthy cs "humidity" then lookupCond cs "humidity" else none
    biome := if condTruthy cs "biome" then lookupCond cs "biome" else none
    dateRange := if condTruthy cs "dateRange" then lookupCond cs "dateRange" else none
    timeOfDay := if condTruthy cs "timeOfDay" then lookupCond cs "timeOfDay" else none
    block :=
      if condTruthy cs "block" then lookupCond cs "block"
      else if condTruthy cs "requiredBlock" then lookupCond cs "requiredBlock"
      else none
    moonPhase := if condTruthy cs "moonPhase" then lookupCond cs "moonPhase" else none
    moonPhaseBonus := if condTruthy cs "moonPhaseBonus" then lookupCond cs "moonPhaseBonus" else none
    thaumcraftVis := if condTruthy cs "thaumcraftVis" then lookupCond cs "thaumcraftVis" else none
    requireExplosion := if condTruthy cs "requireExplosion" then some true else none
    requirePlayer := if condTruthy cs "requirePlayer" then lookupCond cs "requirePlayer" else none
    dimension := if condTruthy cs "dimension" then lookupCond cs "dimension" else none
    isSecret := if condTruthy cs "isSecret" then some true else none
    chance := none }

/-- Build the `mutationEntry` for a relation against the offspring's current
default chance: condition fields (when a non-empty conditions object is
present) plus an explicit `chance` exactly when it differs from the default
by more than `1e-4`. -/
def buildMutationEntry (conds : Option Conditions) (normChance defaultChance : ℚ) :
    Requirement :=
  let base : Requirement :=
    match conds with
    | some cs => if cs.isEmpty then {} else condFields cs
    | none => {}
  if chanceDiffers normChance defaultChance then
    { base with chance := some normChance }
  else base

/-- The mutable state threaded through the relation loop: the working group
map, the seen-identity set, and the skip diagnostics. -/
structure ConsState where
  groups : List (String × Group)
  seen : List String
  skipped : List SkipDiag
deriving DecidableEq, Repr

/-- `requirement.chance || childData.chance` (JS `||` falls through on the
falsy `0` as well as on `undefined`). -/
def manualEntryChance (r : Requirement) (childChance : ℚ) : ℚ :=
  match r.chance with
  | some q => if q = 0 then childChance else q
  | none => childChance

/-- The exact-duplicate index built from the manual override groups: one key
`sortedParents|species|chance` per requirement entry of each conditional
child (children without a `requirements` array contribute no key).
`manual` is expected with parents already sorted in place (see
`sortManualParents`). -/
def buildManualSet (manual : List Group) : List String :=
  manual.foldl (fun acc g =>
    let parentKey := joinPipe (jsSortStrings g.parents)
    g.children.foldl (fun acc2 sc =>
      (sc.2.requirements.getD []).foldl (fun acc3 r =>
        acc3 ++ [parentKey ++ "|" ++ sc.1 ++ "|" ++
          qToString (manualEntryChance r sc.2.chance)]) acc2) acc) []

/-- The in-place `group.parents.sort()` performed while indexing the manual
groups: every manual group's parents array is sorted before any relation is
processed, and the `output` array aliases these very group objects. -/
def sortManualParents (manual : List Group) : List Group :=
  manual.map (fun g => { g with parents := jsSortStrings g.parents })

/-- Seed the working group map from the (parent-sorted) manual groups, with
deep-copied children. -/
def seedGroups (manual : List Group) : List (String × Group) :=
  manual.foldl (fun mg g =>
    assocSet mg (joinPipe g.parents) ⟨g.parents, g.children⟩) []

/-- Process one relation (`merged.mutations.forEach` body).  The only failure
is the JS `TypeError` raised when appending a requirement to a seeded manual
child that has no `requirements` array. -/
def stepMutation (bees : List String) (manualMutationSet : List String)
    (m : Mutation) (s : ConsState) : Except String ConsState :=
  if falsyId m.parent1 || (falsyId m.parent2 || falsyId m.offspring) then
    .ok { s with skipped := s.skipped ++ [⟨m.offspring, false⟩] }
  else
    let parent1 := m.parent1.getD ""
    let parent2 := m.parent2.getD ""
    let offspring := m.offspring.getD ""
    if !(bees.contains parent1 && (bees.contains parent2 && bees.contains offspring)) then
      .ok { s with skipped :=
        s.skipped ++ [⟨m.offspring, checkIfInManualMutations m manualMutationSet⟩] }
    else
      let sortedParents := jsSortStrings [parent1, parent2]
      let parentKey := joinPipe sortedParents
      let conditionsKey := serializeConditions m.conditions
      let normChance := div100 m.chance
      let baseKey := parentKey ++ "|" ++ offspring ++ "|" ++ qToString normChance
      let mutationKey := baseKey ++ conditionsKey
      if manualMutationSet.contains baseKey then
        .ok { s with skipped := s.skipped ++ [⟨m.offspring, true⟩] }
      else if s.seen.contains mutationKey then
        .ok s
      else
        let seen' := s.seen ++ [mutationKey]
        let groups₁ :=
          if assocHas s.groups parentKey then s.groups
          else assocSet s.groups parentKey ⟨sortedParents, []⟩
        match assocGet groups₁ parentKey with
        | none => .error "unreachable: group just ensured"
        | some g =>
          let newChildren := assocSet g.children offspring ⟨normChance, some []⟩
          let g₁ :=
            if assocHas g.children offspring then g
            else { g with children := newChildren }
          match assocGet g₁.children offspring with
          | none => .error "unreachable: child just ensured"
          | some child =>
            let entry := buildMutationEntry m.conditions normChance child.chance
            if entry = ({} : Requirement) then
              .ok { groups := assocSet groups₁ parentKey g₁, seen := seen',
                    skipped := s.skipped }
            else
              match child.requirements with
              | none => .error "TypeError: cannot read properties of undefined (push)"
              | some reqs =>
                let child' := { child with requirements := some (reqs ++ [entry]) }
                let g₂ := { g₁ with children := assocSet g₁.children offspring child' }
                .ok { groups := assocSet groups₁ parentKey g₂, seen := seen',
                      skipped := s.skipped }

/-- Process all relations in order. -/
def runMutations (bees : List String) (manualMutationSet : List String)
    (mutations : List Mutation) (s : ConsState) : Except String ConsState :=
  match mutations with
  | [] => .ok s
  | m :: rest => do
    let s' ← stepMutation bees manualMutationSet m s
    runMutations bees manualMutationSet rest s'

/-- Append one requirement to an existing child unless a structurally
identical one is already present (the `exists` check uses `JSON.stringify`
equality, which on these canonical records is structural equality). -/
def appendReqIfNew (ex : ChildData) (nr : Requirement) : ChildData :=
  let exList := ex.requirements.getD []
  if exList.any (fun e => e = nr) then ex
  else { ex with requirements := some (exList ++ [nr]) }

/-- Merge one updated child entry from the working map into an output manual
group's children (the `Object.entries(updatedGroup.children).forEach` body):
new species are added (omitting an empty requirements array), existing species
receive the structurally new requirements appended. -/
def mergeChild (oc : List (String × ChildData)) (sc : String × ChildData) :
    List (String × ChildData) :=
  match assocGet oc sc.1 with
  | none =>
    let cd := sc.2
    if cd.requirements = some [] then
      assocSet oc sc.1 ⟨cd.chance, none⟩
    else assocSet oc sc.1 cd
  | some existing =>
    let merged := (sc.2.requirements.getD []).foldl appendReqIfNew existing
    assocSet oc sc.1 merged

/-- Merge a whole updated group's children into an output manual group. -/
def mergeChildren (oc upd : List (String × ChildData)) :
    List (String × ChildData) :=
  upd.foldl mergeChild oc

/-- The reconcile pass over the output's manual groups (`output.forEach`). -/
def mergeManualGroups (mg : List (String × Group)) (out : List Group) :
    List Group :=
  out.map (fun g =>
    let parentKey := joinPipe (jsSortStrings g.parents)
    match assocGet mg parentKey with
    | some updated => { g with children := mergeChildren g.children updated.children }
    | none => g)

/-- The new-group comparator: by first parent, then by second. Non-strict on
ties so that insertion sort reproduces JS's stable sort. -/
def groupLe (a b : Group) : Bool :=
  let a0 := (a.parents.get? 0).getD ""
  let b0 := (b.parents.get? 0).getD ""
  if a0 = b0 then jsStrLe ((a.parents.get? 1).getD "") ((b.parents.get? 1).getD "")
  else jsStrLt a0 b0

/-- Final per-group cleanup: children keys sorted lexicographically, empty
requirements arrays removed. -/
def cleanupGroup (g : Group) : Group :=
  let sortedKeys := jsSortStrings (g.children.map Prod.fst)
  { g with children := sortedKeys.filterMap (fun k =>
      (assocGet g.children k).map (fun cd =>
        (k, if cd.requirements = some [] then { cd with requirements := none } else cd))) }

/-- The post-processing after all relations are consolidated: merge the
working map back into the (parent-sorted) manual groups, append the sorted
wholly new groups, and apply the final per-group cleanup. -/
def finalOutput (mg : List (String × Group)) (manual : List Group) : List Group :=
  let outManual := mergeManualGroups mg manual
  let newGroups := (mg.map Prod.snd).filter (fun g =>
    !(manual.any (fun m0 =>
      joinPipe (jsSortStrings m0.parents) = joinPipe (jsSortStrings g.parents))))
  let sortedNew := sortByLe groupLe newGroups
  (outManual ++ sortedNew).map cleanupGroup

/-- `buildBreedingPairsJsonc`: the full consolidation, returning the final
group list and the skip diagnostics (or the thrown error). -/
def buildBreedingPairsJsonc (bees : List String) (mutations : List Mutation)
    (manualMutations : List Group) : Except String (List Group × List SkipDiag) := do
  let manual := sortManualParents manualMutations
  let manualMutationSet := buildManualSet manual
  let sFinal ← runMutations bees manualMutationSet mutations ⟨seedGroups manual, [], []⟩
  return (finalOutput sFinal.groups manual, sFinal.skipped)

/-! ## Shortest-path builder (`shortest_path_builder.js`) -/

/-- One candidate edge in the offspring graph: `{parents, chance,
requirements, isConditional}`.  The two parents come from array destructuring
of `group.parents` and may be `undefined` (`none`) for malformed groups. -/
structure SpCand where
  parentA : Option String
  parentB : Option String
  chance : ℚ
  requirement : Option Requirement
  isConditional : Bool
deriving DecidableEq, Repr

/-- The candidate list a `children` entry contributes: one per requirement
entry when a non-empty `requirements` array is present, else a single
unconditional candidate. -/
def candsOfChild (pA pB : Option String) (cd : ChildData) : List SpCand :=
  match cd.requirements with
  | some reqs =>
    if reqs.length > 0 then
      reqs.map (fun r => ⟨pA, pB, (r.chance.getD cd.chance), some r, true⟩)
    else [⟨pA, pB, cd.chance, none, false⟩]
  | none => [⟨pA, pB, cd.chance, none, false⟩]

/-- Build the mutation graph `offspring → candidate list` from all groups in
encounter order. -/
def buildMutationGraph (allMutations : List Group) :
    List (String × List SpCand) :=
  allMutations.foldl (fun graph g =>
    let pA := g.parents.get? 0
    let pB := g.parents.get? 1
    g.children.foldl (fun gr sc =>
      let gr1 := if assocHas gr sc.1 then gr else gr ++ [(sc.1, [])]
      let old := (assocGet gr1 sc.1).getD []
      assocSet gr1 sc.1 (old ++ candsOfChild pA pB sc.2)) graph) []

/-- The set of entities appearing as an offspring of any group (insertion
order, deduplicated — a JS `Set`). -/
def offspringSet (allMutations : List Group) : List String :=
  allMutations.foldl (fun acc g =>
    g.children.foldl (fun a sc => if a.contains sc.1 then a else a ++ [sc.1]) acc) []

/-- Base bees: every known bee that never appears as an offspring. -/
def baseBees (allBees : List String) (allMutations : List Group) : List String :=
  let withMut := offspringSet allMutations
  allBees.filter (fun b => !withMut.contains b)

/-- Depth lookup through an optional parent (`beeDepth.get(undefined)` is
`undefined`). -/
def depthGet (depth : List (String × ℕ)) (k : Option String) : Option ℕ :=
  k.bind (fun s => assocGet depth s)

/-- One scan of a single graph entry during BFS relaxation: if the offspring
has no depth yet, the first candidate whose two parents both have depths
assigns `max(parentDepths) + 1` and enqueues the offspring. -/
def scanEntry (e : String × List SpCand) (st : List (String × ℕ) × List String) :
    List (String × ℕ) × List String :=
  if (assocGet st.1 e.1).isSome then st
  else
    match e.2.find? (fun c =>
        (depthGet st.1 c.parentA).isSome && (depthGet st.1 c.parentB).isSome) with
    | some c =>
      let d1 := (depthGet st.1 c.parentA).getD 0
      let d2 := (depthGet st.1 c.parentB).getD 0
      (st.1 ++ [(e.1, max d1 d2 + 1)], st.2 ++ [e.1])
    | none => st

/-- One full pass over the graph (the body of the BFS `while` loop scans every
graph entry, threading newly assigned depths into later entries of the same
pass). -/
def scanGraph (graph : List (String × List SpCand)) (depth : List (String × ℕ)) :
    List (String × ℕ) × List String :=
  graph.foldl (fun st e => scanEntry e st) (depth, [])

/-- Entries of the graph still without a depth. -/
def unassignedCount (graph : List (String × List SpCand))
    (depth : List (String × ℕ)) : ℕ :=
  (graph.filter (fun e => (assocGet depth e.1).isNone)).length

theorem assocGet_append_right {β : Type} (m : List (String × β)) (k : String)
    (v : β) (x : String × β) (h : assocGet m k = some v) :
    assocGet (m ++ [x]) k = some v := by
  unfold assocGet at h ⊢
  rw [List.find?_append]
  cases hf : List.find? (fun p => p.1 = k) m with
  | none => rw [hf] at h; cases h
  | some w => rw [hf] at h; simp [Option.or, h, hf]

theorem scanEntry_mono (e : String × List SpCand)
    (st : List (String × ℕ) × List String) (k : String) (v : ℕ)
    (h : assocGet st.1 k = some v) : assocGet (scanEntry e st).1 k = some v := by
  unfold scanEntry
  split
  · exact h
  · split
    · exact assocGet_append_right _ _ _ _ h
    · exact h

theorem scanGraph_mono (graph : List (String × List SpCand))
    (depth : List (String × ℕ)) (k : String) (v : ℕ)
    (h : assocGet depth k = some v) :
    assocGet (scanGraph graph depth).1 k = some v := by
  unfold scanGraph
  suffices h' : ∀ st : List (String × ℕ) × List String, assocGet st.1 k = some v →
      assocGet (graph.foldl (fun st e => scanEntry e st) st).1 k = some v by
    exact h' (depth, []) h
  induction graph with
  | nil => intro st hst; exact hst
  | cons e es ih =>
    intro st hst
    exact ih _ (scanEntry_mono e st k v hst)

theorem length_filter_mono {α : Type} (l : List α) (p q : α → Bool)
    (h : ∀ x ∈ l, q x → p x) :
    (l.filter q).length ≤ (l.filter p).length := by
  induction l with
  | nil => simp
  | cons a t ih =>
    have ht : ∀ x ∈ t, q x → p x := fun x hx => h x (List.mem_cons_of_mem a hx)
    by_cases hq : q a
    · rw [List.filter_cons_of_pos hq, List.filter_cons_of_pos (h a (List.mem_cons_self a t) hq)]
      simpa using ih ht
    · rw [List.filter_cons_of_neg (by simpa using hq)]
      by_cases hp : p a
      · rw [List.filter_cons_of_pos hp]
        exact le_trans (ih ht) (by simp)
      · rw [List.filter_cons_of_neg (by simpa using hp)]
        exact ih ht

theorem length_filter_strict_mono {α : Type} (l : List α) (p q : α → Bool)
    (h : ∀ x ∈ l, q x → p x) (a : α) (ha : a ∈ l) (hpa : p a) (hqa : ¬ q a) :
    (l.filter q).length < (l.filter p).length := by
  induction l with
  | nil => exact absurd ha (List.not_mem_nil a)
  | cons b t ih =>
    have ht : ∀ x ∈ t, q x → p x := fun x hx => h x (List.mem_cons_of_mem b hx)
    rcases List.mem_cons.mp ha with hab | hat
    · subst hab
      rw [List.filter_cons_of_neg (by simpa using hqa), List.filter_cons_of_pos hpa]
      exact Nat.lt_succ_of_le (length_filter_mono t p q ht)
    · by_cases hq : q b
      · rw [List.filter_cons_of_pos hq,
          List.filter_cons_of_pos (h b (List.mem_cons_self b t) hq)]
        simpa using ih ht hat
      · rw [List.filter_cons_of_neg (by simpa using hq)]
        by_cases hp : p b
        · rw [List.filter_cons_of_pos hp]
          exact Nat.lt_succ_of_le (le_of_lt (ih ht hat))
        · rw [List.filter_cons_of_neg (by simpa using hp)]
          exact ih ht hat

theorem assocGet_append_self {β : Type} (m : List (String × β)) (k : String)
    (v : β) (h : assocGet m k = none) : assocGet (m ++ [(k, v)]) k = some v := by
  unfold assocGet at h ⊢
  rw [List.find?_append]
  cases hf : List.find? (fun p => p.1 = k) m with
  | none => simp [Option.or, List.find?]
  | some w => rw [hf] at h; simp at h

theorem unassigned_mono (graph : List (String × List SpCand))
    (d d' : List (String × ℕ))
    (hmono : ∀ k v, assocGet d k = some v → assocGet d' k = some v) :
    unassignedCount graph d' ≤ unassignedCount graph d := by
  unfold unassignedCount
  apply length_filter_mono
  intro e _ he
  simp only [Option.isNone_iff_eq_none, decide_eq_true_eq] at he ⊢
  cases hd : assocGet d e.1 with
  | none => rfl
  | some v => rw [hmono e.1 v hd] at he; cases he

theorem scanEntry_budget (graph : List (String × List SpCand))
    (e : String × List SpCand) (he : e ∈ graph)
    (st : List (String × ℕ) × List String) :
    unassignedCount graph (scanEntry e st).1 + ((scanEntry e st).2).length ≤
      unassignedCount graph st.1 + st.2.length := by
  unfold scanEntry
  split
  · exact le_refl _
  · rename_i hnone
    split
    · rename_i c hc
      simp only [List.length_append, List.length_cons, List.length_nil]
      have hlt : unassignedCount graph (st.1 ++ [(e.1, max ((depthGet st.1 c.parentA).getD 0) ((depthGet st.1 c.parentB).getD 0) + 1)]) < unassignedCount graph st.1 := by
        unfold unassignedCount
        apply length_filter_strict_mono _ _ _ ?_ e he
        · simp only [Option.isNone_iff_eq_none, decide_eq_true_eq]
          cases hx : assocGet st.1 e.1 with
          | none => rfl
          | some v => exact absurd hx (by simp_all)
        · simp only [Option.isNone_iff_eq_none, decide_eq_true_eq]
          rw [assocGet_append_self]
          · simp
          · cases hx : assocGet st.1 e.1 with
            | none => rfl
            | some v => exact absurd hx (by simp_all)
        · intro x _ hx
          simp only [Option.isNone_iff_eq_none, decide_eq_true_eq] at hx ⊢
          cases hd : assocGet st.1 x.1 with
          | none => rfl
          | some v =>
            rw [assocGet_append_right st.1 x.1 _ _ hd] at hx
            cases hx
      omega
    · exact le_refl _

theorem scanFold_budget (graph : List (String × List SpCand))
    (g2 : List (String × List SpCand)) (hsub : ∀ e ∈ g2, e ∈ graph)
    (st : List (String × ℕ) × List String) :
    unassignedCount graph ((g2.foldl (fun st e => scanEntry e st) st).1) +
      ((g2.foldl (fun st e => scanEntry e st) st).2).length ≤
    unassignedCount graph st.1 + st.2.length := by
  induction g2 generalizing st with
  | nil => exact le_refl _
  | cons e es ih =>
    simp only [List.foldl_cons]
    exact le_trans
      (ih (fun x hx => hsub x (List.mem_cons_of_mem e hx)) (scanEntry e st))
      (scanEntry_budget graph e (hsub e (List.mem_cons_self e es)) st)

/-- The BFS loop measure: queue length plus twice the unassigned entries. -/
def bfsMeasure (graph : List (String × List SpCand)) (q : List String)
    (depth : List (String × ℕ)) : ℕ :=
  q.length + 2 * unassignedCount graph depth

/-- Fuel-driven version of the BFS `while (queue.length > 0)` loop: pop an
entity (its identity is unused by the body), perform one full scan of the
graph, append the newly assigned offsprings to the queue.  Structural
recursion on fuel keeps it kernel-computable; `bfsLoopF_fuel_irrel` shows any
fuel at least `bfsMeasure` gives the loop's true result. -/
def bfsLoopF (graph : List (String × List SpCand)) :
    ℕ → List String → List (String × ℕ) → List (String × ℕ)
  | 0, _, depth => depth
  | _ + 1, [], depth => depth
  | f + 1, _ :: rest, depth =>
    let res := scanGraph graph depth
    bfsLoopF graph f (rest ++ res.2) res.1

/-- The BFS `while` loop, run with sufficient fuel. -/
def bfsLoop (graph : List (String × List SpCand)) (q : List String)
    (depth : List (String × ℕ)) : List (String × ℕ) :=
  bfsLoopF graph (bfsMeasure graph q depth) q depth

theorem scanGraph_budget (graph : List (String × List SpCand))
    (depth : List (String × ℕ)) :
    unassignedCount graph (scanGraph graph depth).1 +
      ((scanGraph graph depth).2).length ≤ unassignedCount graph depth := by
  have h := scanFold_budget graph graph (fun e he => he) (depth, [])
  unfold scanGraph
  simpa using h

theorem bfsLoopF_fuel_irrel (graph : List (String × List SpCand)) :
    ∀ f1 f2 q depth, bfsMeasure graph q depth ≤ f1 →
      bfsMeasure graph q depth ≤ f2 →
      bfsLoopF graph f1 q depth = bfsLoopF graph f2 q depth := by
  intro f1
  induction f1 with
  | zero =>
    intro f2 q depth h1 _
    match q with
    | [] =>
      match f2 with
      | 0 => rfl
      | _ + 1 => rfl
    | x :: rest =>
      exact absurd h1 (by simp [bfsMeasure])
  | succ f ih =>
    intro f2 q depth h1 h2
    match q with
    | [] =>
      match f2 with
      | 0 => rfl
      | _ + 1 => rfl
    | x :: rest =>
      match f2 with
      | 0 => exact absurd h2 (by simp [bfsMeasure])
      | g + 1 =>
        show bfsLoopF graph f (rest ++ (scanGraph graph depth).2) (scanGraph graph depth).1 =
          bfsLoopF graph g (rest ++ (scanGraph graph depth).2) (scanGraph graph depth).1
        have hb := scanGraph_budget graph depth
        have hm : bfsMeasure graph (rest ++ (scanGraph graph depth).2)
            ((scanGraph graph depth).1) + 1 ≤ bfsMeasure graph (x :: rest) depth := by
          unfold bfsMeasure at *
          simp only [List.length_append, List.length_cons]
          omega
        exact ih g _ _ (by unfold bfsMeasure at *; omega) (by unfold bfsMeasure at *; omega)

/-- The loop equation for an empty queue. -/
theorem bfsLoop_nil (graph : List (String × List SpCand))
    (depth : List (String × ℕ)) : bfsLoop graph [] depth = depth := by
  unfold bfsLoop bfsMeasure
  match h : 2 * unassignedCount graph depth with
  | 0 => rfl
  | _ + 1 => rfl

/-- The loop equation for a non-empty queue: one scan, then continue. -/
theorem bfsLoop_cons (graph : List (String × List SpCand)) (x : String)
    (rest : List String) (depth : List (String × ℕ)) :
    bfsLoop graph (x :: rest) depth =
      bfsLoop graph (rest ++ (scanGraph graph depth).2) (scanGraph graph depth).1 := by
  unfold bfsLoop
  have hb := scanGraph_budget graph depth
  have h1 : bfsMeasure graph (x :: rest) depth =
      (rest.length + 2 * unassignedCount graph depth) + 1 := by
    unfold bfsMeasure; simp; omega
  rw [h1]
  show bfsLoopF graph _ (x :: rest) depth = _
  rw [show bfsLoopF graph ((rest.length + 2 * unassignedCount graph depth) + 1)
      (x :: rest) depth =
    bfsLoopF graph (rest.length + 2 * unassignedCount graph depth)
      (rest ++ (scanGraph graph depth).2) (scanGraph graph depth).1 from rfl]
  apply bfsLoopF_fuel_irrel
  · unfold bfsMeasure
    simp only [List.length_append]
    omega
  · exact le_rfl

/-- The complete depth computation: seed base bees at depth 0, then run the
BFS relaxation with the base bees as the initial queue. -/
def computeBeeDepths (allBees : List String) (allMutations : List Group) :
    List (String × ℕ) :=
  let graph := buildMutationGraph allMutations
  let bases := baseBees allBees allMutations
  bfsLoop graph bases (bases.map (fun b => (b, 0)))

/-- Process one graph entry in the second pass: pick the first candidate at
`max(parentDepths) + 1 = assignedDepth` and record it in the reduced group
map, marking the offspring processed. -/
def pickEntry (depth : List (String × ℕ)) (e : String × List SpCand)
    (st : List (String × Group) × List String) :
    List (String × Group) × List String :=
  match assocGet depth e.1 with
  | none => st
  | some target =>
    if st.2.contains e.1 then st
    else
      match e.2.find? (fun c =>
          match depthGet depth c.parentA, depthGet depth c.parentB with
          | some d1, some d2 => decide (max d1 d2 + 1 = target)
          | _, _ => false) with
      | none => st
      | some c =>
        let p1 := c.parentA.getD ""
        let p2 := c.parentB.getD ""
        let sorted := jsSortStrings [p1, p2]
        let parentKey := joinPipe sorted
        let g := (assocGet st.1 parentKey).getD ⟨sorted, []⟩
        let child : ChildData :=
          ⟨c.chance,
           if c.isConditional && c.requirement.isSome then
             some [c.requirement.getD {}]
           else none⟩
        (assocSet st.1 parentKey { g with children := assocSet g.children e.1 child },
         st.2 ++ [e.1])

/-- The second pass over the whole graph. -/
def shortestMutationsMap (graph : List (String × List SpCand))
    (depth : List (String × ℕ)) : List (String × Group) :=
  (graph.foldl (fun st e => pickEntry depth e st) ([], [])).1

/-- `buildShortestPathMutations`: base-bee seeding, BFS relaxation, first
shortest-path pick, then output assembly (sort groups by parents, sort
children keys, drop empty requirements arrays). -/
def buildShortestPathMutations (allBees : List String)
    (allMutations : List Group) : List Group :=
  let graph := buildMutationGraph allMutations
  let depth := computeBeeDepths allBees allMutations
  let shortest := shortestMutationsMap graph depth
  let output := shortest.map Prod.snd
  let sorted := sortByLe groupLe output
  sorted.map cleanupGroup

/-! ## MagicBees parser identifier helpers (`magicbees_parser.js`) -/

/-- `s.replace(/_/g, "")`. -/
def stripUnderscores (s : String) : String :=
  (s.data.filter (fun c => !(c = '_'))).asString

/-- JS ASCII upper-casing of one character (`charAt(0).toUpperCase()`). -/
def jsToUpperChar (c : Char) : Char :=
  if 97 ≤ c.toNat ∧ c.toNat ≤ 122 then Char.ofNat (c.toNat - 32) else c

/-- The canonical UID built from a Java enum constant name:
`magicbees:` + lowercase + underscores removed (e.g. `AE_SKYSTONE` →
`magicbees:aeskystone`). -/
def uidFromEnumName (enumName : String) : String :=
  "magicbees:" ++ stripUnderscores (jsToLower enumName)

/-- `enumName.toLowerCase().replace(/_/g, "")` without the namespace. -/
def enumSlug (enumName : String) : String :=
  stripUnderscores (jsToLower enumName)

/-- The display name derived from an enum constant name: split on `_`,
title-case each segment except 2-letter all-caps acronyms kept verbatim,
join with spaces. -/
def displayNameFromEnumName (enumName : String) : String :=
  String.intercalate " " ((jsSplit enumName '_').map (fun part =>
    if part.length = 2 && part.data.all (fun c => 65 ≤ c.toNat && c.toNat ≤ 90) then
      part
    else
      match part.data with
      | [] => ""
      | c :: rest => (jsToUpperChar c :: (rest.map jsToLowerChar)).asString))

/-- A word character for `\w` (`[A-Za-z0-9_]`). -/
def isWordChar (c : Char) : Bool :=
  (65 ≤ c.toNat && c.toNat ≤ 90) || (97 ≤ c.toNat && c.toNat ≤ 122) ||
  (48 ≤ c.toNat && c.toNat ≤ 57) || c = '_'

/-- Whether `pat` occurs as a prefix of `l`, returning the remainder. -/
def dropPrefixChars : List Char → List Char → Option (List Char)
  | [], l => some l
  | _, [] => none
  | p :: ps, c :: cs => if p = c then dropPrefixChars ps cs else none

/-- Scan for the first occurrence of `pat` followed by a non-empty `\w+`
capture — the matcher for regexes of shape `pat(\w+)` such as
`/ExtraBeeDefinition\.(\w+)/`. -/
def findWordAfter (pat : List Char) : List Char → Option (List Char)
  | [] => none
  | c :: cs =>
    match dropPrefixChars pat (c :: cs) with
    | some rest =>
      let word := rest.takeWhile isWordChar
      if word.isEmpty then findWordAfter pat cs else some word
    | none => findWordAfter pat cs

/-- Matcher for `/getForestrySpecies\s*\(\s*"(\w+)"/`: after the literal name,
optional whitespace, `(`, optional whitespace, `"` then a non-empty word. -/
def findForestryCapture : List Char → Option (List Char)
  | [] => none
  | c :: cs =>
    match dropPrefixChars "getForestrySpecies".data (c :: cs) with
    | some rest =>
      let r1 := rest.dropWhile (fun c => c = ' ' || c = '\t' || c = '\n' || c = '\r')
      match r1 with
      | '(' :: r2 =>
        let r3 := r2.dropWhile (fun c => c = ' ' || c = '\t' || c = '\n' || c = '\r')
        match r3 with
        | '"' :: r4 =>
          let word := r4.takeWhile isWordChar
          if word.isEmpty then findForestryCapture cs
          else match r4.drop word.length with
            | '"' :: _ => some word
            | _ => findForestryCapture cs
        | _ => findForestryCapture cs
      | _ => findForestryCapture cs
    | none => findForestryCapture cs

/-- `ref.match(/^[A-Z_]+$/)`: non-empty, all uppercase letters or underscores. -/
def isAllCapsRef (s : String) : Bool :=
  !s.isEmpty && s.data.all (fun c => (65 ≤ c.toNat && c.toNat ≤ 90) || c = '_')

/-- `resolveSpeciesReference`: look the trimmed reference up in the in-progress
bee table by enum name; else try the Forestry helper-call shape; else the
ExtraBees qualified shape; else the bare all-caps forward-reference rule;
else return the input unchanged.  `bees` is the in-progress map as a list of
`(uid, enumName)` pairs in insertion order. -/
def resolveSpeciesReference (ref : String) (bees : List (String × String)) :
    String :=
  let r := jsTrim ref
  match bees.find? (fun b => b.2 = r) with
  | some b => b.1
  | none =>
    match findForestryCapture r.data with
    | some w => "forestry:" ++ jsToLower w.asString
    | none =>
      match findWordAfter "ExtraBeeDefinition.".data r.data with
      | some w =>
        let name := match w with
          | [] => ""
          | c :: rest => (jsToUpperChar c :: (rest.map jsToLowerChar)).asString
        "extrabees:" ++ jsToLower name
      | none =>
        if isAllCapsRef r then "magicbees:" ++ stripUnderscores (jsToLower r)
        else r

/-- Substring occurrence scan over character lists. -/
def hasSubstr (pat : List Char) : List Char → Bool
  | [] => (dropPrefixChars pat []).isSome
  | c :: cs => (dropPrefixChars pat (c :: cs)).isSome || hasSubstr pat cs

/-- `jsIncludes s pat`: JS `String.prototype.includes`. -/
def jsIncludes (s pat : String) : Bool :=
  hasSubstr pat.data s.data

/-- The `requireNight()` / `requireDay()` part of `parseChainedConditions`
(MagicBees parser): both emit the condition key `"time"`, which is outside
the consolidation engine's recognized vocabulary. -/
def parseChainedTimeConditions (chainStr : String) : Conditions :=
  let c0 : Conditions := []
  let c1 := if jsIncludes chainStr "requireNight()" then
    assocSet c0 "time" (CondValue.str "night") else c0
  if jsIncludes chainStr "requireDay()" then
    assocSet c1 "time" (CondValue.str "day") else c1

/-! ## Specification-side definitions -/

/-- Modelled from the spec: a chain of relations of length `n` from base
entities to an entity — base entities have chains of length 0, and an
offspring produced by a group whose two parents have chains of lengths
`np`, `nq` has a chain of length `max np nq + 1` (the spec's "minimum
number of relation hops from some Base Entity"). -/
inductive SpecChain (groups : List Group) (base : List String) :
    String → ℕ → Prop where
  | base (b : String) (hb : b ∈ base) : SpecChain groups base b 0
  | step (g : Group) (hg : g ∈ groups) (off : String) (cd : ChildData)
      (hoff : (off, cd) ∈ g.children) (p q : String)
      (hp : g.parents.get? 0 = some p) (hq : g.parents.get? 1 = some q)
      (np nq : ℕ) (dp : SpecChain groups base p np)
      (dq : SpecChain groups base q nq) :
      SpecChain groups base off (max np nq + 1)

/-! ## Basic lemmas -/

theorem charOfNat_toNat (n : ℕ) (h : n < 55296) : (Char.ofNat n).toNat = n := by
  unfold Char.ofNat
  rw [dif_pos (Or.inl h)]
  unfold Char.ofNatAux Char.toNat
  simp [UInt32.toNat]

theorem jsToLowerChar_idem (c : Char) :
    jsToLowerChar (jsToLowerChar c) = jsToLowerChar c := by
  unfold jsToLowerChar
  by_cases h : 65 ≤ c.toNat ∧ c.toNat ≤ 90
  · rw [if_pos h]
    have hv : (Char.ofNat (c.toNat + 32)).toNat = c.toNat + 32 :=
      charOfNat_toNat _ (by omega)
    rw [if_neg (by omega)]
  · rw [if_neg h, if_neg h]

theorem jsToLowerChar_not_upper (c : Char) :
    ¬ (65 ≤ (jsToLowerChar c).toNat ∧ (jsToLowerChar c).toNat ≤ 90) := by
  unfold jsToLowerChar
  by_cases h : 65 ≤ c.toNat ∧ c.toNat ≤ 90
  · rw [if_pos h]
    have hv : (Char.ofNat (c.toNat + 32)).toNat = c.toNat + 32 :=
      charOfNat_toNat _ (by omega)
    omega
  · rw [if_neg h]
    exact h

/-- Helper for C8: the enum-slug normalization is idempotent at
character-list level. -/
theorem enumSlug_chars_idem (l : List Char) :
    List.filter (fun c => !(c = '_'))
      (List.map jsToLowerChar
        ((l.map jsToLowerChar).filter (fun c => !(c = '_')))) =
    (l.map jsToLowerChar).filter (fun c => !(c = '_')) := by
  induction l with
  | nil => rfl
  | cons c t ih =>
    simp only [List.map_cons]
    by_cases h : jsToLowerChar c = '_'
    · rw [List.filter_cons_of_neg (by simp [h])]
      exact ih
    · rw [List.filter_cons_of_pos (by simp [h])]
      simp only [List.map_cons]
      rw [jsToLowerChar_idem]
      rw [List.filter_cons_of_pos (by simp [h])]
      rw [ih]


/-! ## Claim theorems -/

/-- Claim C8: name normalization is deterministic and cross-source stable —
normalizing twice yields the same canonical key (idempotence of the
lowercase-and-strip-underscores slug rule), and the enum symbol
`AE_SKYSTONE` referenced as a bare forward reference, the same species' own
parsed definition, and the lang-file form `AESkystone` all produce the
bit-for-bit identical canonical key `magicbees:aeskystone`, while the
2-letter all-caps acronym segment `AE` is preserved in the display name. -/
theorem c8_identifier_determinism :
    (∀ s : String, enumSlug (enumSlug s) = enumSlug s) ∧
    uidFromEnumName "AE_SKYSTONE" = "magicbees:aeskystone" ∧
    resolveSpeciesReference "AE_SKYSTONE" [] = "magicbees:aeskystone" ∧
    resolveSpeciesReference "AE_SKYSTONE" [("magicbees:aeskystone", "AE_SKYSTONE")] =
      "magicbees:aeskystone" ∧
    jsToLower "AESkystone" = "aeskystone" ∧
    displayNameFromEnumName "AE_SKYSTONE" = "AE Skystone" := by
  refine ⟨?_, by decide, by decide, by decide, by decide, by decide⟩
  intro s
  unfold enumSlug stripUnderscores jsToLower
  exact congrArg List.asString (enumSlug_chars_idem s.data)

/-- Explicit reduced rationals used by the concrete scenarios (so the kernel
can evaluate the engine on them): `0.20` and `0.05`. -/
def q0_2 : ℚ := ⟨1, 5, by norm_num, by norm_num⟩

/-- The rational `0.05` in reduced form. -/
def q0_05 : ℚ := ⟨1, 20, by norm_num, by norm_num⟩

/-- Bees registry for the override-merge scenario. -/
def c3Bees : List String := ["m:x", "m:y", "m:z"]

/-- Override set for the override-merge scenario: `{X,Y} → Z` at default
chance `0.20`, with an (empty) requirements list. -/
def c3Manual : List Group := [⟨["m:x", "m:y"], [("m:z", ⟨q0_2, some []⟩)]⟩]

/-- Extracted relation for the override-merge scenario: `{X,Y} → Z`,
chance `5`, condition `biome = Hell`. -/
def c3Mut : Mutation :=
  ⟨some "m:x", some "m:y", some "m:z", 5, some [("biome", CondValue.arr ["Hell"])]⟩

/-- The expected merged requirement record: `{biome: ["Hell"], chance: 0.05}`. -/
def c3ExpectedReq : Requirement :=
  { biome := some (CondValue.arr ["Hell"]), chance := some q0_05 }

/-- Claim C3: a relation sharing an override Group's parent pair whose
offspring already exists with a different condition-set is merged as an
appended requirement, which carries an explicit `chance` field exactly when
`|chance/100 - defaultChance| > 1e-4`; concretely, the override
`{X,Y} → Z` at default chance `0.20` merged with the extracted relation
`({X,Y} → Z, chance 5, biome = Hell)` yields a final `Z` entry with default
chance `0.20` and the single requirement `{biome: ["Hell"], chance: 0.05}`. -/
theorem c3_requirement_chance_threshold :
    (∀ (conds : Option Conditions) (normChance defaultChance : ℚ),
      (buildMutationEntry conds normChance defaultChance).chance =
        if |normChance - defaultChance| > 1 / 10000 then some normChance else none) ∧
    buildBreedingPairsJsonc c3Bees [c3Mut] c3Manual =
      .ok ([⟨["m:x", "m:y"], [("m:z", ⟨q0_2, some [c3ExpectedReq]⟩)]⟩], []) := by
  constructor
  · intro conds nc dc
    unfold buildMutationEntry
    by_cases h : chanceDiffers nc dc = true
    · rw [if_pos h, if_pos ((chanceDiffers_iff nc dc).mp h)]
    · rw [if_neg h, if_neg (fun hc => h ((chanceDiffers_iff nc dc).mpr hc))]
      rcases conds with _ | cs
      · rfl
      · by_cases hcs : cs.isEmpty <;> simp [hcs, condFields]
  · decide

/-- Folding an append of singletons is mapping. -/
theorem foldl_append_singleton {α β : Type} (f : β → α) :
    ∀ (l : List β) (acc : List α),
      l.foldl (fun a b => a ++ [f b]) acc = acc ++ l.map f := by
  intro l
  induction l with
  | nil => intro acc; simp
  | cons b bs ih =>
    intro acc
    simp only [List.foldl_cons, List.map_cons]
    rw [ih]
    simp

/-- Folding an append of lists is joining the mapped lists. -/
theorem foldl_append_eq {α β : Type} (f : β → List α) :
    ∀ (l : List β) (acc : List α),
      l.foldl (fun a b => a ++ f b) acc = acc ++ (l.map f).join := by
  intro l
  induction l with
  | nil => intro acc; simp
  | cons b bs ih =>
    intro acc
    simp only [List.foldl_cons, List.map_cons, List.join]
    rw [ih]
    simp

/-- Bees registry for the unconditional-override exact-match counterexample. -/
def c1Bees : List String := ["m:x", "m:y", "m:z"]

/-- Override set with a single unconditional entry (no requirements list):
`{X,Y} → Z` at chance `0.20`. -/
def c1Manual : List Group := [⟨["m:x", "m:y"], [("m:z", ⟨q0_2, none⟩)]⟩]

/-- Extracted relation exactly matching the unconditional override entry:
`({X,Y} → Z, chance 20)`, no conditions. -/
def c1Mut : Mutation := ⟨some "m:x", some "m:y", some "m:z", 20, none⟩

/-- Counterexample to C1 as stated: this extracted relation's sorted parent
pair, offspring and normalized chance (`20/100 = 0.20`) exactly equal those
of the override entry, which is unconditional (no requirements list) — yet
the run records NO skip diagnostic at all (the claim requires a diagnostic
with `inManual = true`); the relation still contributes nothing. -/
theorem c1_counterexample :
    buildBreedingPairsJsonc c1Bees [c1Mut] c1Manual =
      .ok ([⟨["m:x", "m:y"], [("m:z", ⟨q0_2, none⟩)]⟩], []) ∧
    div100 (20 : ℚ) = q0_2 ∧
    jsSortStrings ["m:x", "m:y"] = ["m:x", "m:y"] := by
  refine ⟨by decide, by decide, by decide⟩

/-- Claim C1 (amended): a relation (with resolvable parents and offspring)
whose base identity key — sorted parents, offspring, normalized chance —
appears in the override index is dropped: it is recorded in the skip
diagnostics with `inManual = true` and contributes no group, offspring or
requirement entry (the state is otherwise unchanged).  The override index
contains exactly one key per requirement entry of each override child that
HAS a requirements list (at the requirement's own falsy-defaulted chance);
unconditional override entries (no requirements list) are not indexed, so
exact matches against them produce no diagnostic (see the counterexample)
though they still contribute nothing. -/
theorem c1_override_drop :
    (∀ (bees mset : List String) (m : Mutation) (s : ConsState),
      falsyId m.parent1 = false → falsyId m.parent2 = false →
      falsyId m.offspring = false →
      bees.contains (m.parent1.getD "") = true →
      bees.contains (m.parent2.getD "") = true →
      bees.contains (m.offspring.getD "") = true →
      mset.contains (joinPipe (jsSortStrings [m.parent1.getD "", m.parent2.getD ""]) ++
        "|" ++ m.offspring.getD "" ++ "|" ++ qToString (div100 m.chance)) = true →
      stepMutation bees mset m s =
        .ok { s with skipped := s.skipped ++ [⟨m.offspring, true⟩] }) ∧
    (∀ (manual : List Group) (key : String),
      key ∈ buildManualSet manual ↔
        ∃ g ∈ manual, ∃ sc ∈ g.children, ∃ r ∈ sc.2.requirements.getD [],
          key = joinPipe (jsSortStrings g.parents) ++ "|" ++ sc.1 ++ "|" ++
            qToString (manualEntryChance r sc.2.chance)) := by
  constructor
  · intro bees mset m s h1 h2 h3 h4 h5 h6 h7
    unfold stepMutation
    simp only [h1, h2, h3, h4, h5, h6, Bool.or_self, Bool.or_false, Bool.false_or,
      Bool.and_self, Bool.and_true, Bool.true_and, Bool.not_true, if_false,
      Bool.false_eq_true, if_true]
    simp only [h7, if_true]
  · intro manual key
    unfold buildManualSet
    simp only [foldl_append_singleton, foldl_append_eq]
    simp only [List.nil_append, List.mem_join, List.mem_map]
    constructor
    · rintro ⟨l, ⟨g, hg, rfl⟩, hkey⟩
      rcases List.mem_join.mp hkey with ⟨l3, hl3, hk3⟩
      rcases List.mem_map.mp hl3 with ⟨sc, hsc, rfl⟩
      rcases List.mem_map.mp hk3 with ⟨r, hr, rfl⟩
      exact ⟨g, hg, sc, hsc, r, hr, rfl⟩
    · rintro ⟨g, hg, sc, hsc, r, hr, rfl⟩
      refine ⟨_, ⟨g, hg, rfl⟩, ?_⟩
      apply List.mem_join.mpr
      refine ⟨_, List.mem_map.mpr ⟨sc, hsc, rfl⟩, List.mem_map.mpr ⟨r, hr, rfl⟩⟩

/-- Witness for the amended C1 drop behavior at a concrete input. -/
theorem c1_override_drop_witness :
    stepMutation ["m:x", "m:y", "m:z"] ["m:x|m:y|m:z|1/5"]
      ⟨some "m:x", some "m:y", some "m:z", 20, none⟩ ⟨[], [], []⟩ =
      .ok ⟨[], [], [⟨some "m:z", true⟩]⟩ :=
  c1_override_drop.1 ["m:x", "m:y", "m:z"] ["m:x|m:y|m:z|1/5"]
    ⟨some "m:x", some "m:y", some "m:z", 20, none⟩ ⟨[], [], []⟩
    (by decide) (by decide) (by decide) (by decide) (by decide) (by decide) (by decide)

/-- The rational `0.10` in reduced form. -/
def q0_1 : ℚ := ⟨1, 10, by norm_num, by norm_num⟩

/-- Bees registry for the null-parent skip counterexample (`m:z` resolves as
a bee; the relation's `parent1` is null). -/
def c6Bees : List String := ["m:x", "m:y", "m:a", "m:z"]

/-- A conditional override entry producing `m:z`, so the offspring is
indexed in the override's offspring index. -/
def c6Manual : List Group :=
  [⟨["m:x", "m:y"], [("m:z", ⟨q0_1, some [{ biome := some (CondValue.arr ["Hell"]) }]⟩)]⟩]

/-- A relation with a null `parent1` whose offspring `m:z` is produced by an
override entry. -/
def c6Mut : Mutation := ⟨none, some "m:a", some "m:z", 10, none⟩

/-- Counterexample to C6 as stated: the relation's `parent1` is null and its
offspring `m:z` equals an override entry's offspring key (the indexed-key
check itself returns `true`), so the claim requires `inManual = true`; the
code records the diagnostic with `inManual = false`. -/
theorem c6_counterexample :
    buildBreedingPairsJsonc c6Bees [c6Mut] c6Manual =
      .ok (c6Manual, [⟨some "m:z", false⟩]) ∧
    checkIfInManualMutations c6Mut (buildManualSet (sortManualParents c6Manual)) = true ∧
    tryResolve (some "m:z") = some "m:z" := by
  refine ⟨by decide, by decide, by decide⟩

/-- Claim C6 (amended): a relation with a null/empty or unresolvable parent
or offspring never fails: it is skipped with a diagnostic and contributes
nothing.  When one of the three identifiers is null/empty the diagnostic
carries `inManual = false` unconditionally; when all three are present but
at least one is not a known bee, `inManual` is the offspring-index check,
which is true exactly when the normalized offspring equals the offspring
component of some indexed override key (only override children with a
requirements list are indexed). -/
theorem c6_unresolved_skip :
    (∀ (bees mset : List String) (m : Mutation) (s : ConsState),
      (falsyId m.parent1 || (falsyId m.parent2 || falsyId m.offspring)) = true →
      stepMutation bees mset m s =
        .ok { s with skipped := s.skipped ++ [⟨m.offspring, false⟩] }) ∧
    (∀ (bees mset : List String) (m : Mutation) (s : ConsState),
      falsyId m.parent1 = false → falsyId m.parent2 = false →
      falsyId m.offspring = false →
      (bees.contains (m.parent1.getD "") && (bees.contains (m.parent2.getD "") &&
        bees.contains (m.offspring.getD ""))) = false →
      stepMutation bees mset m s =
        .ok { s with skipped := s.skipped ++
          [⟨m.offspring, checkIfInManualMutations m mset⟩] }) ∧
    (∀ (m : Mutation) (mset : List String),
      checkIfInManualMutations m mset = true ↔
        ∃ off, tryResolve m.offspring = some off ∧
          ∃ key ∈ mset, 3 ≤ (jsSplit key '|').length ∧
            ((jsSplit key '|').get? 2).getD "" = off) := by
  refine ⟨?_, ?_, ?_⟩
  · intro bees mset m s h
    unfold stepMutation
    simp only [h, if_true]
  · intro bees mset m s h1 h2 h3 hb
    unfold stepMutation
    simp only [h1, h2, h3, Bool.or_self, Bool.or_false, Bool.false_or, if_false,
      Bool.false_eq_true, hb, Bool.not_false, if_true]
  · intro m mset
    unfold checkIfInManualMutations
    cases hres : tryResolve m.offspring with
    | none =>
      simp only [Bool.false_eq_true, false_iff]
      rintro ⟨off, hoff, _⟩
      cases hoff
    | some off =>
      rw [List.any_eq_true]
      constructor
      · rintro ⟨key, hkey, hk⟩
        rw [Bool.and_eq_true, decide_eq_true_eq, decide_eq_true_eq] at hk
        exact ⟨off, rfl, key, hkey, hk.1, hk.2⟩
      · rintro ⟨off2, hoff2, key, hkey, hlen, heq⟩
        cases hoff2
        refine ⟨key, hkey, ?_⟩
        rw [Bool.and_eq_true, decide_eq_true_eq, decide_eq_true_eq]
        exact ⟨hlen, heq⟩

/-- Witness for the amended C6 unresolved-skip behavior at a concrete input
(an offspring that is produced by an indexed override entry but whose parent
is not a known bee). -/
theorem c6_unresolved_skip_witness :
    stepMutation ["m:x"] ["m:x|m:y|m:z|1/10"]
      ⟨some "m:q", some "m:x", some "m:z", 10, none⟩ ⟨[], [], []⟩ =
      .ok ⟨[], [], [⟨some "m:z", true⟩]⟩ :=
  c6_unresolved_skip.2.1 ["m:x"] ["m:x|m:y|m:z|1/10"]
    ⟨some "m:q", some "m:x", some "m:z", 10, none⟩ ⟨[], [], []⟩
    (by decide) (by decide) (by decide) (by decide)

theorem condFields_of_unrecognized (cs : Conditions)
    (hunrec : ∀ kv ∈ cs, kv.1 ∉ recognizedConditionKeys) :
    condFields cs = ({} : Requirement) := by
  have hfalse : ∀ k, k ∈ recognizedConditionKeys → condTruthy cs k = false := by
    intro k hk
    have hnone : cs.find? (fun p => decide (p.1 = k)) = none := by
      apply List.find?_eq_none.mpr
      intro p hp
      simp only [decide_eq_true_eq]
      intro hpk
      exact hunrec p hp (hpk ▸ hk)
    unfold condTruthy lookupCond
    rw [hnone]
    rfl
  unfold condFields
  rw [hfalse "temperature" (by decide), hfalse "humidity" (by decide),
    hfalse "biome" (by decide), hfalse "dateRange" (by decide),
    hfalse "timeOfDay" (by decide), hfalse "block" (by decide),
    hfalse "requiredBlock" (by decide), hfalse "moonPhase" (by decide),
    hfalse "moonPhaseBonus" (by decide), hfalse "thaumcraftVis" (by decide),
    hfalse "requireExplosion" (by decide), hfalse "requirePlayer" (by decide),
    hfalse "dimension" (by decide), hfalse "isSecret" (by decide)]
  rfl

/-- Claim C10: a relation whose conditions object is non-empty but contains
only keys outside the recognized vocabulary (such as the `time` key the
MagicBees parser emits for `requireNight()`/`requireDay()`) has its
conditions silently discarded: the condition-field copy is empty, and —
provided neither identity key was already seen — the relation's effect on
the group map and the skip diagnostics is exactly that of the same relation
with no conditions at all (only the seen-key set differs). -/
theorem c10_unrecognized_conditions (bees mset : List String) (m : Mutation)
    (s : ConsState) (cs : Conditions)
    (hconds : m.conditions = some cs) (hne : cs.isEmpty = false)
    (hunrec : ∀ kv ∈ cs, kv.1 ∉ recognizedConditionKeys)
    (hseen1 : s.seen.contains
      (joinPipe (jsSortStrings [m.parent1.getD "", m.parent2.getD ""]) ++ "|" ++
        m.offspring.getD "" ++ "|" ++ qToString (div100 m.chance) ++
        serializeConditions m.conditions) = false)
    (hseen2 : s.seen.contains
      (joinPipe (jsSortStrings [m.parent1.getD "", m.parent2.getD ""]) ++ "|" ++
        m.offspring.getD "" ++ "|" ++ qToString (div100 m.chance)) = false) :
    condFields cs = ({} : Requirement) ∧
    (stepMutation bees mset m s).map (fun t => (t.groups, t.skipped)) =
      (stepMutation bees mset { m with conditions := none } s).map
        (fun t => (t.groups, t.skipped)) := by
  refine ⟨condFields_of_unrecognized cs hunrec, ?_⟩
  have hbme : ∀ nc dc : ℚ, buildMutationEntry (some cs) nc dc =
      buildMutationEntry none nc dc := by
    intro nc dc
    simp only [buildMutationEntry, hne, Bool.false_eq_true, if_false,
      condFields_of_unrecognized cs hunrec]
  have hbme2 : ∀ nc dc : ℚ, buildMutationEntry m.conditions nc dc =
      buildMutationEntry none nc dc := by
    rw [hconds]; exact hbme
  unfold stepMutation
  dsimp only
  by_cases hf : (falsyId m.parent1 || (falsyId m.parent2 || falsyId m.offspring)) = true
  · rw [if_pos hf, if_pos hf]
  · rw [if_neg hf, if_neg hf]
    by_cases hbees : (bees.contains (m.parent1.getD "") &&
        (bees.contains (m.parent2.getD "") && bees.contains (m.offspring.getD ""))) = true
    · have hnb : ¬((!(bees.contains (m.parent1.getD "") &&
          (bees.contains (m.parent2.getD "") && bees.contains (m.offspring.getD "")))) = true) := by
        rw [hbees]
        decide
      rw [if_neg hnb, if_neg hnb]
      by_cases hman : mset.contains (joinPipe (jsSortStrings [m.parent1.getD "", m.parent2.getD ""]) ++
          "|" ++ m.offspring.getD "" ++ "|" ++ qToString (div100 m.chance)) = true
      · rw [if_pos hman, if_pos hman]
      · rw [if_neg hman, if_neg hman]
        have hns1 : ¬(s.seen.contains
            (joinPipe (jsSortStrings [m.parent1.getD "", m.parent2.getD ""]) ++ "|" ++
              m.offspring.getD "" ++ "|" ++ qToString (div100 m.chance) ++
              serializeConditions m.conditions) = true) := by
          rw [hseen1]
          exact Bool.false_ne_true
        have hns2 : ¬(s.seen.contains
            (joinPipe (jsSortStrings [m.parent1.getD "", m.parent2.getD ""]) ++ "|" ++
              m.offspring.getD "" ++ "|" ++ qToString (div100 m.chance)) = true) := by
          rw [hseen2]
          exact Bool.false_ne_true
        rw [if_neg hns1]
        rw [show serializeConditions none = "" from rfl, String.append_empty]
        rw [if_neg hns2]
        set pk := joinPipe (jsSortStrings [m.parent1.getD "", m.parent2.getD ""]) with hpk
        set sp := jsSortStrings [m.parent1.getD "", m.parent2.getD ""] with hsp
        set gs := (if assocHas s.groups pk = true then s.groups
          else assocSet s.groups pk (Group.mk sp [])) with hgs
        cases hx : assocGet gs pk with
        | none => rfl
        | some g =>
          dsimp only
          set ch := assocSet g.children (m.offspring.getD "")
            (ChildData.mk (div100 m.chance) (some [])) with hch
          set g1 := (if assocHas g.children (m.offspring.getD "") = true then g
            else Group.mk g.parents ch) with hg1
          cases hy : assocGet g1.children (m.offspring.getD "") with
          | none => rfl
          | some child =>
            dsimp only
            rw [hbme2]
            by_cases hemp : buildMutationEntry none (div100 m.chance) child.chance =
                ({} : Requirement)
            · rw [if_pos hemp, if_pos hemp]
              rfl
            · rw [if_neg hemp, if_neg hemp]
              cases child.requirements with
              | none => rfl
              | some reqs => rfl
    · have hb2 : (bees.contains (m.parent1.getD "") &&
          (bees.contains (m.parent2.getD "") && bees.contains (m.offspring.getD ""))) = false := by
        revert hbees
        cases (bees.contains (m.parent1.getD "") &&
          (bees.contains (m.parent2.getD "") && bees.contains (m.offspring.getD ""))) <;> simp
      rw [if_pos (show _ = true by rw [hb2]; decide),
        if_pos (show _ = true by rw [hb2]; decide)]
      rfl


/-- Witness for C10 at a concrete input: the MagicBees `time` condition. -/
theorem c10_unrecognized_conditions_witness :
    parseChainedTimeConditions ".requireNight()" = [("time", CondValue.str "night")] ∧
    "time" ∉ recognizedConditionKeys ∧
    (stepMutation ["m:x", "m:y", "m:z"] []
        ⟨some "m:x", some "m:y", some "m:z", 5, some [("time", CondValue.str "night")]⟩
        ⟨[], [], []⟩).map (fun t => (t.groups, t.skipped)) =
      (stepMutation ["m:x", "m:y", "m:z"] []
        ⟨some "m:x", some "m:y", some "m:z", 5, none⟩ ⟨[], [], []⟩).map
        (fun t => (t.groups, t.skipped)) :=
  ⟨by decide, by decide,
    (c10_unrecognized_conditions ["m:x", "m:y", "m:z"] []
      ⟨some "m:x", some "m:y", some "m:z", 5, some [("time", CondValue.str "night")]⟩
      ⟨[], [], []⟩ [("time", CondValue.str "night")] rfl (by decide) (by decide)
      (by decide) (by decide)).2⟩

theorem char_toNat_inj (a b : Char) (h : a.toNat = b.toNat) : a = b := by
  rw [← Char.ofNat_toNat a, ← Char.ofNat_toNat b, h]

theorem charListLe_total (l1 l2 : List Char) :
    charListLe l1 l2 = true ∨ charListLe l2 l1 = true := by
  induction l1 generalizing l2 with
  | nil => left; rfl
  | cons a as ih =>
    cases l2 with
    | nil => right; rfl
    | cons b bs =>
      by_cases hab : a.toNat < b.toNat
      · left
        unfold charListLe
        rw [if_pos hab]
      · by_cases hba : b.toNat < a.toNat
        · right
          unfold charListLe
          rw [if_pos hba]
        · rcases ih bs with h | h
          · left
            unfold charListLe
            rw [if_neg hab, if_neg hba]
            exact h
          · right
            unfold charListLe
            rw [if_neg hba, if_neg hab]
            exact h

theorem charListLe_antisymm (l1 l2 : List Char)
    (h12 : charListLe l1 l2 = true) (h21 : charListLe l2 l1 = true) : l1 = l2 := by
  induction l1 generalizing l2 with
  | nil =>
    cases l2 with
    | nil => rfl
    | cons b bs => cases h21
  | cons a as ih =>
    cases l2 with
    | nil => cases h12
    | cons b bs =>
      unfold charListLe at h12 h21
      by_cases hab : a.toNat < b.toNat
      · rw [if_neg (by omega), if_pos hab] at h21
        cases h21
      · by_cases hba : b.toNat < a.toNat
        · rw [if_pos hba] at h21
          rw [if_neg hab, if_pos hba] at h12
          cases h12
        · rw [if_neg hab, if_neg hba] at h12
          rw [if_neg hba, if_neg hab] at h21
          have hae : a = b := char_toNat_inj a b (by omega)
          rw [hae, ih bs h12 h21]

/-- Sorting a two-element string array. -/
theorem jsSortStrings_pair (a b : String) :
    jsSortStrings [a, b] = if jsStrLe a b then [a, b] else [b, a] := rfl

/-- Two-element string sorting is order-insensitive. -/
theorem jsSortStrings_pair_comm (a b : String) :
    jsSortStrings [b, a] = jsSortStrings [a, b] := by
  rw [jsSortStrings_pair, jsSortStrings_pair]
  by_cases hab : jsStrLe a b = true
  · by_cases hba : jsStrLe b a = true
    · have hdata : a.data = b.data := charListLe_antisymm a.data b.data hab hba
      have heq : a = b := by
        cases a
        cases b
        simp only [String.data] at hdata
        rw [hdata]
      rw [heq]
    · rw [if_neg (by simpa using hba), if_pos (by simpa using hab)]
  · rcases charListLe_total a.data b.data with h | h
    · exact absurd h hab
    · rw [if_pos (by simpa using h), if_neg (by simpa using hab)]

/-- Swap the two parent references of a relation. -/
def swapParents (m : Mutation) : Mutation :=
  { m with parent1 := m.parent2, parent2 := m.parent1 }

/-- The rational `0.15` in reduced form. -/
def q0_15 : ℚ := ⟨3, 20, by norm_num, by norm_num⟩

/-- Claim C4: parent-pair symmetry — processing a relation with its parents
swapped is literally the same state transformation (so a reordered second
occurrence is a duplicate within the run and adds no second group, offspring
or requirement entry), and the concrete pair of reordered relations
consolidates into exactly one Group keyed by the sorted parent pair. -/
theorem c4_parent_pair_symmetry :
    (∀ (bees mset : List String) (m : Mutation) (s : ConsState),
      stepMutation bees mset (swapParents m) s = stepMutation bees mset m s) ∧
    buildBreedingPairsJsonc ["m:x", "m:y", "m:z"]
      [⟨some "m:y", some "m:x", some "m:z", 15, none⟩,
       ⟨some "m:x", some "m:y", some "m:z", 15, none⟩] [] =
      .ok ([⟨["m:x", "m:y"], [("m:z", ⟨q0_15, none⟩)]⟩], []) := by
  constructor
  · intro bees mset m s
    unfold stepMutation swapParents
    dsimp only
    rw [show (falsyId m.parent2 || (falsyId m.parent1 || falsyId m.offspring)) =
        (falsyId m.parent1 || (falsyId m.parent2 || falsyId m.offspring)) by
      cases falsyId m.parent1 <;> cases falsyId m.parent2 <;> rfl]
    rw [show (bees.contains (m.parent2.getD "") && (bees.contains (m.parent1.getD "") &&
          bees.contains (m.offspring.getD ""))) =
        (bees.contains (m.parent1.getD "") && (bees.contains (m.parent2.getD "") &&
          bees.contains (m.offspring.getD ""))) by
      cases bees.contains (m.parent1.getD "") <;>
        cases bees.contains (m.parent2.getD "") <;> rfl]
    rw [jsSortStrings_pair_comm (m.parent1.getD "") (m.parent2.getD "")]
    rfl
  · decide

/-! ## Association-list toolkit lemmas -/

theorem assocGet_mem {β : Type} (m : List (String × β)) (k : String) (v : β)
    (h : assocGet m k = some v) : (k, v) ∈ m := by
  unfold assocGet at h
  cases hf : m.find? (fun p => p.1 = k) with
  | none => rw [hf] at h; cases h
  | some p =>
    rw [hf] at h
    have hp := List.find?_some hf
    simp only [decide_eq_true_eq] at hp
    have hv : p.2 = v := by simpa using h
    have : p = (k, v) := by
      cases p
      simp_all
    exact this ▸ List.mem_of_find?_eq_some hf

theorem mem_assocSet {β : Type} (m : List (String × β)) (k : String) (v : β)
    (p : String × β) (hp : p ∈ assocSet m k v) : p = (k, v) ∨ p ∈ m := by
  unfold assocSet at hp
  by_cases hk : m.any (fun p => p.1 = k) = true
  · rw [if_pos hk] at hp
    rcases List.mem_map.mp hp with ⟨q, hq, hqe⟩
    by_cases hq1 : q.1 = k
    · rw [if_pos hq1] at hqe
      exact Or.inl hqe.symm
    · rw [if_neg hq1] at hqe
      exact Or.inr (hqe ▸ hq)
  · rw [if_neg hk] at hp
    rcases List.mem_append.mp hp with h | h
    · exact Or.inr h
    · exact Or.inl (by simpa using h)

theorem assocHas_false_iff {β : Type} (m : List (String × β)) (k : String) :
    assocHas m k = false ↔ k ∉ m.map Prod.fst := by
  unfold assocHas
  rw [← Bool.not_eq_true, List.any_eq_true]
  simp only [decide_eq_true_eq, List.mem_map]

theorem assocSet_keys_of_has {β : Type} (m : List (String × β)) (k : String)
    (v : β) (h : assocHas m k = true) :
    (assocSet m k v).map Prod.fst = m.map Prod.fst := by
  unfold assocSet
  unfold assocHas at h
  rw [if_pos h, List.map_map]
  apply List.map_congr_left
  intro p _
  by_cases hp : p.1 = k
  · simp [hp]
  · simp [hp]

theorem assocSet_keys_of_not_has {β : Type} (m : List (String × β)) (k : String)
    (v : β) (h : assocHas m k = false) :
    (assocSet m k v).map Prod.fst = m.map Prod.fst ++ [k] := by
  unfold assocSet
  unfold assocHas at h
  rw [if_neg (by rw [h]; exact Bool.false_ne_true)]
  simp

theorem assocSet_keys_nodup {β : Type} (m : List (String × β)) (k : String)
    (v : β) (h : (m.map Prod.fst).Nodup) :
    ((assocSet m k v).map Prod.fst).Nodup := by
  cases hk : assocHas m k with
  | true => rw [assocSet_keys_of_has m k v hk]; exact h
  | false =>
    rw [assocSet_keys_of_not_has m k v hk]
    rw [List.nodup_append]
    refine ⟨h, List.nodup_singleton k, ?_⟩
    intro x hx hx1
    have : x = k := by simpa using hx1
    exact (assocHas_false_iff m k).mp hk (this ▸ hx)

theorem assocGet_isSome_of_mem_keys {β : Type} (m : List (String × β))
    (k : String) (h : k ∈ m.map Prod.fst) : (assocGet m k).isSome := by
  unfold assocGet
  rcases List.mem_map.mp h with ⟨p, hp, rfl⟩
  cases hf : m.find? (fun q => q.1 = p.1) with
  | some q => simp
  | none =>
    have := List.find?_eq_none.mp hf p hp
    simp at this

theorem mem_insertSorted {α : Type} (le : α → α → Bool) (x : α) (l : List α)
    (y : α) : y ∈ insertSorted le x l ↔ y = x ∨ y ∈ l := by
  induction l with
  | nil => simp [insertSorted]
  | cons a as ih =>
    unfold insertSorted
    by_cases hle : le x a = true
    · rw [if_pos hle]
      simp
    · rw [if_neg hle]
      simp only [List.mem_cons, ih]
      tauto

theorem mem_sortByLe {α : Type} (le : α → α → Bool) (l : List α) (y : α) :
    y ∈ sortByLe le l ↔ y ∈ l := by
  induction l with
  | nil => simp [sortByLe]
  | cons a as ih =>
    unfold sortByLe at ih ⊢
    simp only [List.foldr_cons, mem_insertSorted, List.mem_cons, ih]

theorem sortByLe_perm {α : Type} (le : α → α → Bool) (l : List α) :
    (sortByLe le l).Perm l := by
  induction l with
  | nil => exact List.Perm.refl _
  | cons a as ih =>
    unfold sortByLe at ih ⊢
    rw [List.foldr_cons]
    have hperm : ∀ (x : α) (t : List α), (insertSorted le x t).Perm (x :: t) := by
      intro x t
      induction t with
      | nil => exact List.Perm.refl _
      | cons b bs ihb =>
        unfold insertSorted
        by_cases hle : le x b = true
        · rw [if_pos hle]
        · rw [if_neg hle]
          exact ((ihb.cons b).trans (List.Perm.swap x b bs))
    exact (hperm a _).trans (ih.cons a)

/-- Keys of a group's children object are pairwise distinct. -/
def childKeysNodup (g : Group) : Prop := (g.children.map Prod.fst).Nodup

instance (g : Group) : Decidable (childKeysNodup g) := by
  unfold childKeysNodup
  infer_instance

def groupsOK (mg : List (String × Group)) : Prop := ∀ p ∈ mg, childKeysNodup p.2

theorem groupsOK_assocSet (mg : List (String × Group)) (k : String) (g : Group)
    (hmg : groupsOK mg) (hg : childKeysNodup g) : groupsOK (assocSet mg k g) := by
  intro p hp
  rcases mem_assocSet mg k g p hp with rfl | hpm
  · exact hg
  · exact hmg p hpm

theorem seedGroups_OK (manual : List Group)
    (hman : ∀ g ∈ manual, childKeysNodup g) : groupsOK (seedGroups manual) := by
  unfold seedGroups
  suffices hgen : ∀ (l : List Group) (acc : List (String × Group)),
      (∀ g ∈ l, childKeysNodup g) → groupsOK acc →
      groupsOK (l.foldl (fun mg g => assocSet mg (joinPipe g.parents) ⟨g.parents, g.children⟩) acc) by
    exact hgen manual [] hman (by intro p hp; cases hp)
  intro l
  induction l with
  | nil => intro acc _ hacc; exact hacc
  | cons g gs ih =>
    intro acc hl hacc
    exact ih _ (fun x hx => hl x (List.mem_cons_of_mem g hx))
      (groupsOK_assocSet acc _ _ hacc (hl g (List.mem_cons_self g gs)))

theorem stepMutation_OK (bees mset : List String) (m : Mutation)
    (s s' : ConsState) (h : stepMutation bees mset m s = .ok s')
    (hs : groupsOK s.groups) : groupsOK s'.groups := by
  unfold stepMutation at h
  dsimp only at h
  split at h
  · cases h; exact hs
  · split at h
    · cases h; exact hs
    · split at h
      · cases h; exact hs
      · split at h
        · cases h; exact hs
        · have hg1 : groupsOK (if assocHas s.groups
              (joinPipe (jsSortStrings [m.parent1.getD "", m.parent2.getD ""])) = true
              then s.groups
              else assocSet s.groups
                (joinPipe (jsSortStrings [m.parent1.getD "", m.parent2.getD ""]))
                ⟨jsSortStrings [m.parent1.getD "", m.parent2.getD ""], []⟩) := by
            split
            · exact hs
            · exact groupsOK_assocSet _ _ _ hs (by simp [childKeysNodup])
          split at h
          · cases h
          · rename_i g heq
            have hgOK : childKeysNodup g := hg1 _ (assocGet_mem _ _ _ heq)
            have hg2 : childKeysNodup (if assocHas g.children (m.offspring.getD "") = true
                then g
                else Group.mk g.parents (assocSet g.children (m.offspring.getD "")
                  (ChildData.mk (div100 m.chance) (some [])))) := by
              split
              · exact hgOK
              · exact assocSet_keys_nodup _ _ _ hgOK
            split at h
            · cases h
            · rename_i child heq2
              split at h
              · cases h
                exact groupsOK_assocSet _ _ _ hg1 hg2
              · split at h
                · cases h
                · cases h
                  exact groupsOK_assocSet _ _ _ hg1 (assocSet_keys_nodup _ _ _ hg2)


theorem runMutations_OK (bees mset : List String) (mutations : List Mutation)
    (s s' : ConsState) (h : runMutations bees mset mutations s = .ok s')
    (hs : groupsOK s.groups) : groupsOK s'.groups := by
  induction mutations generalizing s with
  | nil =>
    unfold runMutations at h
    cases h
    exact hs
  | cons m rest ih =>
    unfold runMutations at h
    cases hstep : stepMutation bees mset m s with
    | error e => rw [hstep] at h; cases h
    | ok s1 =>
      rw [hstep] at h
      exact ih s1 h (stepMutation_OK bees mset m s s1 hstep hs)

theorem mergeChild_keys_nodup (oc : List (String × ChildData))
    (sc : String × ChildData) (h : (oc.map Prod.fst).Nodup) :
    ((mergeChild oc sc).map Prod.fst).Nodup := by
  unfold mergeChild
  dsimp only
  split
  · split
    · exact assocSet_keys_nodup _ _ _ h
    · exact assocSet_keys_nodup _ _ _ h
  · exact assocSet_keys_nodup _ _ _ h

theorem mergeChildren_keys_nodup (oc upd : List (String × ChildData))
    (h : (oc.map Prod.fst).Nodup) :
    ((mergeChildren oc upd).map Prod.fst).Nodup := by
  unfold mergeChildren
  induction upd generalizing oc with
  | nil => exact h
  | cons sc rest ih =>
    rw [List.foldl_cons]
    exact ih _ (mergeChild_keys_nodup oc sc h)

theorem filterMap_keys {β : Type} (l : List String) (h : String → Option β)
    (g : String → β → β) :
    ((l.filterMap (fun k => (h k).map (fun cd => (k, g k cd)))).map Prod.fst) =
      l.filter (fun k => (h k).isSome) := by
  induction l with
  | nil => rfl
  | cons a as ih =>
    cases ha : h a with
    | none =>
      rw [List.filterMap_cons, List.filter_cons]
      simp only [ha, Option.map_none', Option.isSome_none, Bool.false_eq_true, if_false]
      exact ih
    | some v =>
      rw [List.filterMap_cons, List.filter_cons]
      simp only [ha, Option.map_some', Option.isSome_some, if_true]
      simp only [List.map_cons]
      rw [ih]

theorem cleanupGroup_keys_nodup (g : Group) (h : childKeysNodup g) :
    childKeysNodup (cleanupGroup g) := by
  unfold cleanupGroup childKeysNodup
  simp only
  rw [filterMap_keys (jsSortStrings (g.children.map Prod.fst)) (fun k => assocGet g.children k)
    (fun k cd => if cd.requirements = some [] then { cd with requirements := none } else cd)]
  apply List.Nodup.filter
  exact ((sortByLe_perm jsStrLe (g.children.map Prod.fst)).nodup_iff).mpr h

theorem appendReqIfNew_nodup (ex : ChildData) (nr : Requirement)
    (h : (ex.requirements.getD []).Nodup) :
    ((appendReqIfNew ex nr).requirements.getD []).Nodup := by
  unfold appendReqIfNew
  dsimp only
  split
  · exact h
  · rename_i hany
    simp only [Option.getD_some]
    rw [List.nodup_append]
    refine ⟨h, List.nodup_singleton nr, ?_⟩
    intro x hx hx1
    have hxe : x = nr := by simpa using hx1
    apply hany
    rw [List.any_eq_true]
    exact ⟨x, hx, by simp [hxe]⟩

theorem foldl_appendReqIfNew_nodup (newReqs : List Requirement) :
    ∀ ex : ChildData, (ex.requirements.getD []).Nodup →
      ((newReqs.foldl appendReqIfNew ex).requirements.getD []).Nodup := by
  induction newReqs with
  | nil => intro ex h; exact h
  | cons nr rest ih =>
    intro ex h
    rw [List.foldl_cons]
    exact ih _ (appendReqIfNew_nodup ex nr h)

/-- Inversion of a successful consolidation run. -/
theorem buildBreeding_ok_inv (bees : List String) (mutations : List Mutation)
    (manual : List Group) (out : List Group) (sk : List SkipDiag)
    (hrun : buildBreedingPairsJsonc bees mutations manual = .ok (out, sk)) :
    ∃ sFinal, runMutations bees (buildManualSet (sortManualParents manual)) mutations
        ⟨seedGroups (sortManualParents manual), [], []⟩ = .ok sFinal ∧
      out = finalOutput sFinal.groups (sortManualParents manual) ∧
      sk = sFinal.skipped := by
  unfold buildBreedingPairsJsonc at hrun
  dsimp only at hrun
  cases hr : runMutations bees (buildManualSet (sortManualParents manual)) mutations
      ⟨seedGroups (sortManualParents manual), [], []⟩ with
  | error e =>
    rw [hr] at hrun
    exact Except.noConfusion hrun
  | ok sFinal =>
    rw [hr] at hrun
    refine ⟨sFinal, rfl, ?_⟩
    have hrun2 : Except.ok (ε := String)
        (finalOutput sFinal.groups (sortManualParents manual), sFinal.skipped) =
        Except.ok (out, sk) := hrun
    injection hrun2 with hpair
    injection hpair with h1 h2
    exact ⟨h1.symm, h2.symm⟩

/-- Relations differing only in the raw condition key (`block` versus
`requiredBlock`) that project to the same requirement record. -/
def c5Mut1 : Mutation :=
  ⟨some "m:x", some "m:y", some "m:z", 5, some [("block", CondValue.arr ["stone"])]⟩

/-- The same relation expressed through the `requiredBlock` key. -/
def c5Mut2 : Mutation :=
  ⟨some "m:x", some "m:y", some "m:z", 5, some [("requiredBlock", CondValue.arr ["stone"])]⟩

/-- The requirement record both relations project to. -/
def c5Req : Requirement := { block := some (CondValue.arr ["stone"]) }

/-- Counterexample to C5 as stated: two distinct relations with different
raw condition keys (`block` versus `requiredBlock`) pass the full-identity
duplicate filter but project to structurally identical requirement records;
in a newly created Group no structural dedup is applied, so the final `m:z`
entry carries the identical requirement twice. -/
theorem c5_counterexample :
    buildBreedingPairsJsonc ["m:x", "m:y", "m:z"] [c5Mut1, c5Mut2] [] =
      .ok ([⟨["m:x", "m:y"], [("m:z", ⟨q0_05, some [c5Req, c5Req]⟩)]⟩], []) ∧
    c5Mut1 ≠ c5Mut2 := by
  refine ⟨by decide, by decide⟩

/-- Claim C5 (amended): offspring keys are unique within every Group of the
final output (provided the override file's own children are unique), and
structural requirement dedup holds where it is applied — when merging
extracted requirements into an offspring entry that already exists in an
override Group, a requirement is appended only if no structurally identical
one is present, preserving duplicate-freeness.  Newly created Groups dedup
only by full identity key, so structurally identical duplicates can occur
there (see the counterexample). -/
theorem c5_offspring_unique_and_merge_dedup (bees : List String)
    (mutations : List Mutation) (manual : List Group) (out : List Group)
    (sk : List SkipDiag)
    (hrun : buildBreedingPairsJsonc bees mutations manual = .ok (out, sk))
    (hman : ∀ g ∈ manual, childKeysNodup g) :
    (∀ g ∈ out, childKeysNodup g) ∧
    (∀ (newReqs : List Requirement) (ex : ChildData),
      (ex.requirements.getD []).Nodup →
      ((newReqs.foldl appendReqIfNew ex).requirements.getD []).Nodup) := by
  refine ⟨?_, fun newReqs ex h => foldl_appendReqIfNew_nodup newReqs ex h⟩
  rcases buildBreeding_ok_inv bees mutations manual out sk hrun with
    ⟨sFinal, hr, hout, hsk⟩
  have hman2 : ∀ g ∈ sortManualParents manual, childKeysNodup g := by
    intro g hg
    rcases List.mem_map.mp hg with ⟨g0, hg0, rfl⟩
    exact hman g0 hg0
  have hseed : groupsOK (seedGroups (sortManualParents manual)) :=
    seedGroups_OK _ hman2
  have hfin : groupsOK sFinal.groups :=
    runMutations_OK _ _ _ _ _ hr hseed
  intro g hg
  rw [hout] at hg
  unfold finalOutput at hg
  rcases List.mem_map.mp hg with ⟨g1, hg1, rfl⟩
  apply cleanupGroup_keys_nodup
  rcases List.mem_append.mp hg1 with hgm | hgn
  · unfold mergeManualGroups at hgm
    rcases List.mem_map.mp hgm with ⟨g0, hg0, rfl⟩
    dsimp only
    split
    · exact mergeChildren_keys_nodup _ _ (hman2 g0 hg0)
    · exact hman2 g0 hg0
  · rcases List.mem_filter.mp ((mem_sortByLe groupLe _ _).mp hgn) with ⟨hmem, _⟩
    rcases List.mem_map.mp hmem with ⟨p, hp, rfl⟩
    exact hfin p hp

/-- Witness for the amended C5 at a concrete input. -/
theorem c5_offspring_unique_witness :
    childKeysNodup (⟨["m:x", "m:y"],
      [("m:z", ChildData.mk q0_05 (some [c5Req, c5Req]))]⟩ : Group) :=
  (c5_offspring_unique_and_merge_dedup ["m:x", "m:y", "m:z"] [c5Mut1, c5Mut2] []
    [⟨["m:x", "m:y"], [("m:z", ChildData.mk q0_05 (some [c5Req, c5Req]))]⟩] []
    (by decide) (by decide)).1
    ⟨["m:x", "m:y"], [("m:z", ChildData.mk q0_05 (some [c5Req, c5Req]))]⟩
    (by decide)

theorem charListLe_trans (l1 l2 l3 : List Char)
    (h12 : charListLe l1 l2 = true) (h23 : charListLe l2 l3 = true) :
    charListLe l1 l3 = true := by
  induction l1 generalizing l2 l3 with
  | nil => rfl
  | cons a as ih =>
    cases l2 with
    | nil => cases h12
    | cons b bs =>
      cases l3 with
      | nil => cases h23
      | cons c cs =>
        unfold charListLe at h12 h23 ⊢
        by_cases hab : a.toNat < b.toNat
        · by_cases hbc : b.toNat < c.toNat
          · rw [if_pos (show a.toNat < c.toNat by omega)]
          · by_cases hcb : c.toNat < b.toNat
            · rw [if_neg hbc, if_pos hcb] at h23
              cases h23
            · rw [if_pos (show a.toNat < c.toNat by omega)]
        · by_cases hba : b.toNat < a.toNat
          · rw [if_neg hab, if_pos hba] at h12
            cases h12
          · rw [if_neg hab, if_neg hba] at h12
            by_cases hbc : b.toNat < c.toNat
            · rw [if_pos (show a.toNat < c.toNat by omega)]
            · by_cases hcb : c.toNat < b.toNat
              · rw [if_neg hbc, if_pos hcb] at h23
                cases h23
              · rw [if_neg hbc, if_neg hcb] at h23
                rw [if_neg (show ¬a.toNat < c.toNat by omega),
                  if_neg (show ¬c.toNat < a.toNat by omega)]
                exact ih bs cs h12 h23

theorem jsStrLe_total (a b : String) : jsStrLe a b = true ∨ jsStrLe b a = true :=
  charListLe_total a.data b.data

theorem jsStrLe_trans (a b c : String) (h1 : jsStrLe a b = true)
    (h2 : jsStrLe b c = true) : jsStrLe a c = true :=
  charListLe_trans _ _ _ h1 h2

theorem insertSorted_sorted {α : Type} (le : α → α → Bool)
    (htot : ∀ a b, le a b = true ∨ le b a = true)
    (htrans : ∀ a b c, le a b = true → le b c = true → le a c = true)
    (x : α) (l : List α) (hl : List.Pairwise (fun a b => le a b = true) l) :
    List.Pairwise (fun a b => le a b = true) (insertSorted le x l) := by
  induction l with
  | nil => simp [insertSorted]
  | cons a as ih =>
    unfold insertSorted
    by_cases hle : le x a = true
    · rw [if_pos hle]
      refine List.Pairwise.cons ?_ hl
      intro y hy
      rcases List.mem_cons.mp hy with rfl | hy2
      · exact hle
      · exact htrans x a y hle (List.rel_of_pairwise_cons hl hy2)
    · rw [if_neg hle]
      have hax : le a x = true := (htot x a).resolve_left hle
      refine List.Pairwise.cons ?_ (ih (List.Pairwise.of_cons hl))
      intro y hy
      rcases (mem_insertSorted le x as y).mp hy with rfl | hy2
      · exact hax
      · exact List.rel_of_pairwise_cons hl hy2

theorem sortByLe_sorted {α : Type} (le : α → α → Bool)
    (htot : ∀ a b, le a b = true ∨ le b a = true)
    (htrans : ∀ a b c, le a b = true → le b c = true → le a c = true)
    (l : List α) :
    List.Pairwise (fun a b => le a b = true) (sortByLe le l) := by
  induction l with
  | nil => simp [sortByLe]
  | cons a as ih =>
    unfold sortByLe at ih ⊢
    rw [List.foldr_cons]
    exact insertSorted_sorted le htot htrans a _ ih

theorem jsSortStrings_sorted (l : List String) :
    List.Pairwise (fun a b => jsStrLe a b = true) (jsSortStrings l) :=
  sortByLe_sorted jsStrLe jsStrLe_total jsStrLe_trans l

/-- A group's parents array is in (non-strict) lexicographic order. -/
def parentsSorted (g : Group) : Prop :=
  List.Pairwise (fun a b => jsStrLe a b = true) g.parents

instance (g : Group) : Decidable (parentsSorted g) := by
  unfold parentsSorted
  infer_instance

def groupsPS (mg : List (String × Group)) : Prop := ∀ p ∈ mg, parentsSorted p.2

theorem groupsPS_assocSet (mg : List (String × Group)) (k : String) (g : Group)
    (hmg : groupsPS mg) (hg : parentsSorted g) : groupsPS (assocSet mg k g) := by
  intro p hp
  rcases mem_assocSet mg k g p hp with rfl | hpm
  · exact hg
  · exact hmg p hpm

theorem sortManualParents_sorted (manual : List Group) :
    ∀ g ∈ sortManualParents manual, parentsSorted g := by
  intro g hg
  rcases List.mem_map.mp hg with ⟨g0, _, rfl⟩
  exact jsSortStrings_sorted g0.parents

theorem seedGroups_PS (manual : List Group)
    (hman : ∀ g ∈ manual, parentsSorted g) : groupsPS (seedGroups manual) := by
  unfold seedGroups
  suffices hgen : ∀ (l : List Group) (acc : List (String × Group)),
      (∀ g ∈ l, parentsSorted g) → groupsPS acc →
      groupsPS (l.foldl (fun mg g => assocSet mg (joinPipe g.parents) ⟨g.parents, g.children⟩) acc) by
    exact hgen manual [] hman (by intro p hp; cases hp)
  intro l
  induction l with
  | nil => intro acc _ hacc; exact hacc
  | cons g gs ih =>
    intro acc hl hacc
    exact ih _ (fun x hx => hl x (List.mem_cons_of_mem g hx))
      (groupsPS_assocSet acc _ _ hacc (hl g (List.mem_cons_self g gs)))

theorem stepMutation_PS (bees mset : List String) (m : Mutation)
    (s s' : ConsState) (h : stepMutation bees mset m s = .ok s')
    (hs : groupsPS s.groups) : groupsPS s'.groups := by
  unfold stepMutation at h
  dsimp only at h
  split at h
  · cases h; exact hs
  · split at h
    · cases h; exact hs
    · split at h
      · cases h; exact hs
      · split at h
        · cases h; exact hs
        · have hg1 : groupsPS (if assocHas s.groups
              (joinPipe (jsSortStrings [m.parent1.getD "", m.parent2.getD ""])) = true
              then s.groups
              else assocSet s.groups
                (joinPipe (jsSortStrings [m.parent1.getD "", m.parent2.getD ""]))
                ⟨jsSortStrings [m.parent1.getD "", m.parent2.getD ""], []⟩) := by
            split
            · exact hs
            · exact groupsPS_assocSet _ _ _ hs
                (jsSortStrings_sorted [m.parent1.getD "", m.parent2.getD ""])
          split at h
          · cases h
          · rename_i g heq
            have hgPS : parentsSorted g := hg1 _ (assocGet_mem _ _ _ heq)
            have hg2 : parentsSorted (if assocHas g.children (m.offspring.getD "") = true
                then g
                else Group.mk g.parents (assocSet g.children (m.offspring.getD "")
                  (ChildData.mk (div100 m.chance) (some [])))) := by
              split
              · exact hgPS
              · exact hgPS
            split at h
            · cases h
            · rename_i child heq2
              split at h
              · cases h
                exact groupsPS_assocSet _ _ _ hg1 hg2
              · split at h
                · cases h
                · cases h
                  exact groupsPS_assocSet _ _ _ hg1 hg2

theorem runMutations_PS (bees mset : List String) (mutations : List Mutation)
    (s s' : ConsState) (h : runMutations bees mset mutations s = .ok s')
    (hs : groupsPS s.groups) : groupsPS s'.groups := by
  induction mutations generalizing s with
  | nil =>
    unfold runMutations at h
    cases h
    exact hs
  | cons m rest ih =>
    unfold runMutations at h
    cases hstep : stepMutation bees mset m s with
    | error e => rw [hstep] at h; cases h
    | ok s1 =>
      rw [hstep] at h
      exact ih s1 h (stepMutation_PS bees mset m s s1 hstep hs)

/-- Claim C9: every Group in the final mutations output — including the
Groups that were loaded from the manual override file — has its parents
array in lexicographically sorted order (the override file's original parent
ordering is never preserved, since the groups are sorted in place while the
index keys are built). -/
theorem c9_parents_sorted (bees : List String) (mutations : List Mutation)
    (manual : List Group) (out : List Group) (sk : List SkipDiag)
    (hrun : buildBreedingPairsJsonc bees mutations manual = .ok (out, sk)) :
    ∀ g ∈ out, List.Pairwise (fun a b => jsStrLe a b = true) g.parents := by
  rcases buildBreeding_ok_inv bees mutations manual out sk hrun with
    ⟨sFinal, hr, hout, hsk⟩
  have hfin : groupsPS sFinal.groups :=
    runMutations_PS _ _ _ _ _ hr (seedGroups_PS _ (sortManualParents_sorted manual))
  intro g hg
  rw [hout] at hg
  unfold finalOutput at hg
  rcases List.mem_map.mp hg with ⟨g1, hg1, rfl⟩
  show parentsSorted (cleanupGroup g1)
  have hclean : ∀ g0 : Group, parentsSorted g0 → parentsSorted (cleanupGroup g0) :=
    fun g0 h0 => h0
  apply hclean
  rcases List.mem_append.mp hg1 with hgm | hgn
  · unfold mergeManualGroups at hgm
    rcases List.mem_map.mp hgm with ⟨g0, hg0, rfl⟩
    dsimp only
    split
    · exact sortManualParents_sorted manual g0 hg0
    · exact sortManualParents_sorted manual g0 hg0
  · rcases List.mem_filter.mp ((mem_sortByLe groupLe _ _).mp hgn) with ⟨hmem, _⟩
    rcases List.mem_map.mp hmem with ⟨p, hp, rfl⟩
    exact hfin p hp

/-- Witness for C9: a manual override group given with parents out of order
comes out of the consolidation with its parents sorted. -/
theorem c9_parents_sorted_witness :
    List.Pairwise (fun a b => jsStrLe a b = true)
      (Group.mk ["m:x", "m:y"] [("m:z", ChildData.mk q0_2 none)]).parents :=
  c9_parents_sorted [] [] [Group.mk ["m:y", "m:x"] [("m:z", ChildData.mk q0_2 (some []))]]
    [Group.mk ["m:x", "m:y"] [("m:z", ChildData.mk q0_2 none)]] [] (by decide)
    (Group.mk ["m:x", "m:y"] [("m:z", ChildData.mk q0_2 none)]) (by decide)

theorem foldl_preserve_mem {α β : Type} (P : β → Prop) (f : β → α → β)
    (l : List α) (hstep : ∀ b a, a ∈ l → P b → P (f b a)) (b : β) (hb : P b) :
    P (l.foldl f b) := by
  induction l generalizing b with
  | nil => exact hb
  | cons a t ih =>
    exact ih (fun b0 x hx hb0 => hstep b0 x (List.mem_cons_of_mem a hx) hb0) _
      (hstep b a (List.mem_cons_self a t) hb)

theorem assocGet_of_nodup {β : Type} (m : List (String × β))
    (hnd : (m.map Prod.fst).Nodup) (k : String) (v : β) (hm : (k, v) ∈ m) :
    assocGet m k = some v := by
  induction m with
  | nil => cases hm
  | cons q t ih =>
    rcases List.mem_cons.mp hm with hqe | ht
    · rw [← hqe]
      unfold assocGet
      rw [List.find?_cons_of_pos _ (by simp)]
      rfl
    · have hq : ¬(q.1 = k) := by
        intro he
        have hk : k ∈ t.map Prod.fst := List.mem_map.mpr ⟨(k, v), ht, rfl⟩
        rw [List.map_cons] at hnd
        exact (List.nodup_cons.mp hnd).1 (he ▸ hk)
      unfold assocGet
      rw [List.find?_cons_of_neg _ (by simpa using hq)]
      have hnd2 : (t.map Prod.fst).Nodup := by
        rw [List.map_cons] at hnd
        exact (List.nodup_cons.mp hnd).2
      exact ih hnd2 ht

theorem assocGet_append_case {β : Type} (m : List (String × β)) (k : String)
    (v : β) (x : String) (d : β)
    (h : assocGet (m ++ [(k, v)]) x = some d) :
    assocGet m x = some d ∨ (x = k ∧ assocGet m x = none ∧ d = v) := by
  unfold assocGet at h ⊢
  rw [List.find?_append] at h
  cases hf : m.find? (fun p => p.1 = x) with
  | some w =>
    rw [hf] at h
    left
    simpa [Option.or] using h
  | none =>
    rw [hf] at h
    by_cases hkx : k = x
    · right
      refine ⟨hkx.symm, rfl, ?_⟩
      simp [Option.or, List.find?, hkx] at h
      exact h.symm
    · exfalso
      simp [Option.or, List.find?, hkx] at h

theorem depthGet_append_right (m : List (String × ℕ)) (x : String × ℕ)
    (k : Option String) (v : ℕ) (h : depthGet m k = some v) :
    depthGet (m ++ [x]) k = some v := by
  unfold depthGet at h ⊢
  cases k with
  | none => cases h
  | some s => exact assocGet_append_right m s v x h

theorem buildMutationGraph_keys_nodup (allMutations : List Group) :
    ((buildMutationGraph allMutations).map Prod.fst).Nodup := by
  unfold buildMutationGraph
  apply foldl_preserve_mem
    (fun graph => ((graph : List (String × List SpCand)).map Prod.fst).Nodup)
  · intro graph g _ hnd
    apply foldl_preserve_mem
      (fun gr => ((gr : List (String × List SpCand)).map Prod.fst).Nodup)
    · intro gr sc _ hgr
      apply assocSet_keys_nodup
      split
      · exact hgr
      · rename_i hhas
        rw [List.map_append, List.nodup_append]
        refine ⟨hgr, List.nodup_singleton _, ?_⟩
        intro y hy hy1
        have hyk : y = sc.1 := by simpa using hy1
        have hf : assocHas gr sc.1 = false := by
          rw [Bool.eq_false_iff]
          exact hhas
        exact (assocHas_false_iff gr sc.1).mp hf (hyk ▸ hy)
    · exact hnd
  · simp

/-- The BFS assignment invariant: every assigned depth is either a base bee
at 0 or `max(parent depths) + 1` for some candidate of the offspring's graph
entry, with both parent depths assigned. -/
def depthInv (graph : List (String × List SpCand)) (bases : List String)
    (depth : List (String × ℕ)) : Prop :=
  ∀ e d, assocGet depth e = some d →
    (e ∈ bases ∧ d = 0) ∨
    (∃ cands, assocGet graph e = some cands ∧ ∃ c ∈ cands, ∃ d1 d2,
      depthGet depth c.parentA = some d1 ∧ depthGet depth c.parentB = some d2 ∧
      d = max d1 d2 + 1)

theorem scanEntry_inv (graph : List (String × List SpCand)) (bases : List String)
    (e : String × List SpCand) (st : List (String × ℕ) × List String)
    (hge : assocGet graph e.1 = some e.2)
    (hinv : depthInv graph bases st.1) : depthInv graph bases (scanEntry e st).1 := by
  unfold scanEntry
  split
  · exact hinv
  · split
    · rename_i c hc
      intro x dx hx
      have hpred := List.find?_some hc
      simp only [Bool.and_eq_true, Option.isSome_iff_exists] at hpred
      obtain ⟨⟨a1, ha1⟩, ⟨a2, ha2⟩⟩ := hpred
      rcases assocGet_append_case st.1 e.1 _ x dx hx with hold | ⟨hxe, _, hdx⟩
      · rcases hinv x dx hold with hb | ⟨cands, hcget, c0, hc0, d1, d2, h1, h2, hd⟩
        · exact Or.inl hb
        · exact Or.inr ⟨cands, hcget, c0, hc0, d1, d2,
            depthGet_append_right _ _ _ _ h1, depthGet_append_right _ _ _ _ h2, hd⟩
      · subst hxe
        refine Or.inr ⟨e.2, hge, c, List.mem_of_find?_eq_some hc, a1, a2,
          depthGet_append_right _ _ _ _ ha1, depthGet_append_right _ _ _ _ ha2, ?_⟩
        rw [hdx, ha1, ha2, Option.getD_some, Option.getD_some]
    · exact hinv

theorem scanGraph_inv (graph : List (String × List SpCand)) (bases : List String)
    (depth : List (String × ℕ))
    (hga : ∀ e ∈ graph, assocGet graph e.1 = some e.2)
    (hinv : depthInv graph bases depth) :
    depthInv graph bases (scanGraph graph depth).1 := by
  unfold scanGraph
  exact foldl_preserve_mem (fun st => depthInv graph bases st.1)
    (fun st e => scanEntry e st) graph
    (fun st e he hst => scanEntry_inv graph bases e st (hga e he) hst) (depth, []) hinv

theorem bfsLoopF_inv (graph : List (String × List SpCand)) (bases : List String)
    (hga : ∀ e ∈ graph, assocGet graph e.1 = some e.2) :
    ∀ f q depth, depthInv graph bases depth →
      depthInv graph bases (bfsLoopF graph f q depth) := by
  intro f
  induction f with
  | zero =>
    intro q depth h
    cases q with
    | nil => exact h
    | cons x rest => exact h
  | succ f ih =>
    intro q depth h
    cases q with
    | nil => exact h
    | cons x rest =>
      exact ih (rest ++ (scanGraph graph depth).2) (scanGraph graph depth).1
        (scanGraph_inv graph bases depth hga h)

theorem assocGet_const_zero (bases : List String) (e : String) (d : ℕ)
    (h : assocGet (bases.map (fun b => (b, 0))) e = some d) : e ∈ bases ∧ d = 0 := by
  induction bases with
  | nil => cases h
  | cons b t ih =>
    by_cases hbe : b = e
    · subst hbe
      unfold assocGet at h
      rw [List.map_cons, List.find?_cons_of_pos _ (by simp)] at h
      refine ⟨List.mem_cons_self b t, ?_⟩
      have : (0 : ℕ) = d := by simpa using h
      exact this.symm
    · unfold assocGet at h
      rw [List.map_cons, List.find?_cons_of_neg _ (by simpa using hbe)] at h
      rcases ih h with ⟨hm, hd⟩
      exact ⟨List.mem_cons_of_mem b hm, hd⟩

theorem computeBeeDepths_inv (allBees : List String) (allMutations : List Group) :
    depthInv (buildMutationGraph allMutations) (baseBees allBees allMutations)
      (computeBeeDepths allBees allMutations) := by
  unfold computeBeeDepths bfsLoop
  exact bfsLoopF_inv _ _
    (fun e he => assocGet_of_nodup _ (buildMutationGraph_keys_nodup allMutations)
      e.1 e.2 he) _ _ _
    (fun e d h => Or.inl (assocGet_const_zero _ _ _ h))
/-- The second-pass invariant: every recorded child entry corresponds to a
graph candidate whose `max(parentDepths) + 1` equals the offspring's assigned
depth, the entry's chance is the candidate's, and the holding group's parent
key is the candidate's sorted parent pair — and every group sits under its
own parent key. -/
def pickInv (graph : List (String × List SpCand)) (depth : List (String × ℕ))
    (acc : List (String × Group)) : Prop :=
  (∀ p ∈ acc, joinPipe p.2.parents = p.1) ∧
  (∀ p ∈ acc, ∀ sc ∈ p.2.children,
    ∃ target, assocGet depth sc.1 = some target ∧
    ∃ cands, assocGet graph sc.1 = some cands ∧
    ∃ c ∈ cands, ∃ d1 d2,
      depthGet depth c.parentA = some d1 ∧ depthGet depth c.parentB = some d2 ∧
      max d1 d2 + 1 = target ∧
      joinPipe p.2.parents =
        joinPipe (jsSortStrings [c.parentA.getD "", c.parentB.getD ""]) ∧
      sc.2.chance = c.chance)

theorem pickEntry_inv (graph : List (String × List SpCand))
    (depth : List (String × ℕ)) (e : String × List SpCand)
    (st : List (String × Group) × List String)
    (hge : assocGet graph e.1 = some e.2)
    (h : pickInv graph depth st.1) : pickInv graph depth (pickEntry depth e st).1 := by
  unfold pickEntry
  split
  · exact h
  · rename_i target htarget
    split
    · exact h
    · split
      · exact h
      · rename_i c hc
        dsimp only
        have hparents : joinPipe ((assocGet st.1
            (joinPipe (jsSortStrings [c.parentA.getD "", c.parentB.getD ""]))).getD
            ⟨jsSortStrings [c.parentA.getD "", c.parentB.getD ""], []⟩).parents =
            joinPipe (jsSortStrings [c.parentA.getD "", c.parentB.getD ""]) := by
          cases hg : assocGet st.1
              (joinPipe (jsSortStrings [c.parentA.getD "", c.parentB.getD ""])) with
          | none => rfl
          | some gOld => exact h.1 (_, gOld) (assocGet_mem _ _ _ hg)
        constructor
        · intro p hp
          rcases mem_assocSet _ _ _ _ hp with hpe | hold
          · rw [hpe]
            exact hparents
          · exact h.1 p hold
        · intro p hp
          rcases mem_assocSet _ _ _ _ hp with hpe | hold
          · subst hpe
            intro sc hsc
            rcases mem_assocSet _ _ _ _ hsc with hsce | holdc
            · subst hsce
              refine ⟨target, htarget, e.2, hge, c, List.mem_of_find?_eq_some hc, ?_⟩
              have hpred := List.find?_some hc
              cases hA : depthGet depth c.parentA with
              | none =>
                rw [hA] at hpred
                exact Bool.noConfusion hpred
              | some d1 =>
                cases hB : depthGet depth c.parentB with
                | none =>
                  rw [hA, hB] at hpred
                  exact Bool.noConfusion hpred
                | some d2 =>
                  rw [hA, hB] at hpred
                  exact ⟨d1, d2, rfl, rfl, of_decide_eq_true hpred, hparents, rfl⟩
            · cases hg : assocGet st.1
                  (joinPipe (jsSortStrings [c.parentA.getD "", c.parentB.getD ""])) with
              | none =>
                rw [hg] at holdc
                simp at holdc
              | some gOld =>
                rw [hg] at holdc
                obtain ⟨t', ht', cands, hcget, c0, hc0, d1, d2, hA, hB, hmax, hjoin, hch⟩ :=
                  h.2 (_, gOld) (assocGet_mem _ _ _ hg) sc holdc
                exact ⟨t', ht', cands, hcget, c0, hc0, d1, d2, hA, hB, hmax, hjoin, hch⟩
          · exact h.2 p hold

theorem shortestMutationsMap_inv (graph : List (String × List SpCand))
    (depth : List (String × ℕ))
    (hga : ∀ e ∈ graph, assocGet graph e.1 = some e.2) :
    pickInv graph depth (shortestMutationsMap graph depth) := by
  unfold shortestMutationsMap
  exact foldl_preserve_mem (fun st => pickInv graph depth st.1)
    (fun st e => pickEntry depth e st) graph
    (fun st e he hst => pickEntry_inv graph depth e st (hga e he) hst) ([], [])
    ⟨fun p hp => absurd hp (List.not_mem_nil p), fun p hp => absurd hp (List.not_mem_nil p)⟩

theorem cleanupGroup_child_source (g : Group) (sc : String × ChildData)
    (h : sc ∈ (cleanupGroup g).children) :
    ∃ cd0, (sc.1, cd0) ∈ g.children ∧ sc.2.chance = cd0.chance := by
  unfold cleanupGroup at h
  dsimp only at h
  rcases List.mem_filterMap.mp h with ⟨k, hk, hmap⟩
  cases hget : assocGet g.children k with
  | none =>
    rw [hget] at hmap
    cases hmap
  | some cd =>
    rw [hget] at hmap
    injection hmap with h2
    subst h2
    refine ⟨cd, assocGet_mem _ _ _ hget, ?_⟩
    dsimp only
    split
    · rfl
    · rfl

theorem buildShortestPathMutations_source (allBees : List String)
    (allMutations : List Group) (g : Group)
    (hg : g ∈ buildShortestPathMutations allBees allMutations) :
    ∃ g0, (∃ k, (k, g0) ∈ shortestMutationsMap (buildMutationGraph allMutations)
      (computeBeeDepths allBees allMutations)) ∧ g = cleanupGroup g0 := by
  unfold buildShortestPathMutations at hg
  dsimp only at hg
  rcases List.mem_map.mp hg with ⟨g0, hg0, rfl⟩
  rcases List.mem_map.mp ((mem_sortByLe groupLe _ _).mp hg0) with ⟨p, hp, rfl⟩
  exact ⟨p.2, ⟨p.1, hp⟩, rfl⟩

/-- Claim C2 (amended): every assigned depth is locally correct — a base bee
at 0 or `max(parentDepths) + 1` for some graph candidate whose parents both
carry assigned depths — and every child entry of the shortest-path output
was chosen from a candidate whose `max(parentDepths) + 1` equals the
offspring's assigned depth, carrying that candidate's chance and sorted
parent pair as the group key.  (The assigned depth is not in general the
shortest chain length, and the chosen relation's parents need not both sit
at `assignedDepth - 1`; see the counterexample.) -/
theorem c2_depth_and_pick (allBees : List String) (allMutations : List Group) :
    (∀ e d, assocGet (computeBeeDepths allBees allMutations) e = some d →
      (e ∈ baseBees allBees allMutations ∧ d = 0) ∨
      (∃ cands, assocGet (buildMutationGraph allMutations) e = some cands ∧
        ∃ c ∈ cands, ∃ d1 d2,
          depthGet (computeBeeDepths allBees allMutations) c.parentA = some d1 ∧
          depthGet (computeBeeDepths allBees allMutations) c.parentB = some d2 ∧
          d = max d1 d2 + 1)) ∧
    (∀ g ∈ buildShortestPathMutations allBees allMutations, ∀ sc ∈ g.children,
      ∃ target, assocGet (computeBeeDepths allBees allMutations) sc.1 = some target ∧
      ∃ cands, assocGet (buildMutationGraph allMutations) sc.1 = some cands ∧
      ∃ c ∈ cands, ∃ d1 d2,
        depthGet (computeBeeDepths allBees allMutations) c.parentA = some d1 ∧
        depthGet (computeBeeDepths allBees allMutations) c.parentB = some d2 ∧
        max d1 d2 + 1 = target ∧
        joinPipe g.parents =
          joinPipe (jsSortStrings [c.parentA.getD "", c.parentB.getD ""]) ∧
        sc.2.chance = c.chance) := by
  have hga : ∀ e ∈ buildMutationGraph allMutations,
      assocGet (buildMutationGraph allMutations) e.1 = some e.2 :=
    fun e he => assocGet_of_nodup _ (buildMutationGraph_keys_nodup allMutations)
      e.1 e.2 he
  constructor
  · exact computeBeeDepths_inv allBees allMutations
  · intro g hg sc hsc
    rcases buildShortestPathMutations_source allBees allMutations g hg with
      ⟨g0, ⟨k, hk⟩, rfl⟩
    rcases cleanupGroup_child_source g0 sc hsc with ⟨cd0, hmem0, hch0⟩
    obtain ⟨target, ht, cands, hcget, c, hc, d1, d2, hA, hB, hmax, hjoin, hch⟩ :=
      (shortestMutationsMap_inv (buildMutationGraph allMutations)
        (computeBeeDepths allBees allMutations) hga).2 (k, g0) hk (sc.1, cd0) hmem0
    exact ⟨target, ht, cands, hcget, c, hc, d1, d2, hA, hB, hmax, hjoin,
      hch0.trans hch⟩

/-- A chain of length 0 exists only for a base entity. -/
theorem specChain_zero (groups : List Group) (base : List String) (s : String)
    (h : SpecChain groups base s 0) : s ∈ base := by
  cases h with
  | base b hb => exact hb

/-- The bee registry for the C2 counterexample. -/
def c2bees : List String := ["f:a", "f:c", "f:d", "f:e", "f:b", "f:z"]

/-- The shared child record of the C2 counterexample. -/
def c2cd : ChildData := ⟨q0_2, none⟩

/-- Three breeding groups: `f:c`+`f:d` → `f:b`, `f:a`+`f:b` → `f:z`, and
`f:c`+`f:e` → `f:z` — the last one gives `f:z` a one-hop chain, but the BFS
scan assigns `f:b` depth 1 and then, in the same pass, `f:z` depth 2 through
the first-listed candidate `(f:a, f:b)`. -/
def c2groups : List Group :=
  [⟨["f:c", "f:d"], [("f:b", c2cd)]⟩,
   ⟨["f:a", "f:b"], [("f:z", c2cd)]⟩,
   ⟨["f:c", "f:e"], [("f:z", c2cd)]⟩]

/-- Counterexample to C2 as stated: `f:z` is assigned depth 2 although the
shortest chain of relations reaching it has length 1, and the producing
relation chosen for `f:z` in the output has parents `f:a` (depth 0) and
`f:b` (depth 1) — not both at `assignedDepth - 1 = 1`. -/
theorem c2_counterexample :
    assocGet (computeBeeDepths c2bees c2groups) "f:z" = some 2 ∧
    SpecChain c2groups (baseBees c2bees c2groups) "f:z" 1 ∧
    ¬ SpecChain c2groups (baseBees c2bees c2groups) "f:z" 0 ∧
    (∃ g ∈ buildShortestPathMutations c2bees c2groups,
      (assocGet g.children "f:z").isSome ∧ g.parents = ["f:a", "f:b"]) ∧
    assocGet (computeBeeDepths c2bees c2groups) "f:a" = some 0 ∧
    assocGet (computeBeeDepths c2bees c2groups) "f:b" = some 1 := by
  refine ⟨by decide, ?_, ?_, by decide, by decide, by decide⟩
  · have hc : ("f:c" : String) ∈ baseBees c2bees c2groups := by decide
    have he : ("f:e" : String) ∈ baseBees c2bees c2groups := by decide
    exact SpecChain.step ⟨["f:c", "f:e"], [("f:z", c2cd)]⟩ (by decide) "f:z" c2cd
      (by decide) "f:c" "f:e" rfl rfl 0 0 (SpecChain.base "f:c" hc)
      (SpecChain.base "f:e" he)
  · intro h
    exact absurd (specChain_zero _ _ _ h) (by decide)

/-- All child keys across the groups of the working map, in order. -/
def keyChildren (acc : List (String × Group)) : List String :=
  acc.flatMap (fun p => p.2.children.map Prod.fst)

theorem keyChildren_append (a b : List (String × Group)) :
    keyChildren (a ++ b) = keyChildren a ++ keyChildren b := by
  unfold keyChildren
  exact List.flatMap_append a b _

theorem keyChildren_cons (p : String × Group) (l : List (String × Group)) :
    keyChildren (p :: l) = p.2.children.map Prod.fst ++ keyChildren l := by
  unfold keyChildren
  exact List.flatMap_cons _ _ _

theorem assocGet_split {β : Type} (m : List (String × β)) (k : String) (w : β)
    (h : assocGet m k = some w) :
    ∃ m₁ m₂, m = m₁ ++ (k, w) :: m₂ ∧ ∀ p ∈ m₁, p.1 ≠ k := by
  induction m with
  | nil => cases h
  | cons q t ih =>
    by_cases hq : q.1 = k
    · unfold assocGet at h
      rw [List.find?_cons_of_pos _ (by simpa using hq)] at h
      have hw : q.2 = w := by simpa using h
      refine ⟨[], t, ?_, by intro p hp; cases hp⟩
      have hqe : q = (k, w) := by
        cases q
        simp_all
      rw [hqe]
      rfl
    · unfold assocGet at h
      rw [List.find?_cons_of_neg _ (by simpa using hq)] at h
      rcases ih h with ⟨m₁, m₂, heq, hne⟩
      refine ⟨q :: m₁, m₂, by rw [heq]; rfl, ?_⟩
      intro p hp
      rcases List.mem_cons.mp hp with rfl | hp2
      · exact hq
      · exact hne p hp2

theorem assocSet_split {β : Type} (m₁ m₂ : List (String × β)) (k : String)
    (w v : β) (h₁ : ∀ p ∈ m₁, p.1 ≠ k) (h₂ : ∀ p ∈ m₂, p.1 ≠ k) :
    assocSet (m₁ ++ (k, w) :: m₂) k v = m₁ ++ (k, v) :: m₂ := by
  unfold assocSet
  have hany : (m₁ ++ (k, w) :: m₂).any (fun p => decide (p.1 = k)) = true := by
    rw [List.any_eq_true]
    exact ⟨(k, w), by simp, by simp⟩
  rw [if_pos hany, List.map_append, List.map_cons]
  have h₁m : m₁.map (fun p => if p.1 = k then (k, v) else p) = m₁ := by
    conv_rhs => rw [← List.map_id m₁]
    apply List.map_congr_left
    intro p hp
    rw [if_neg (h₁ p hp)]
    rfl
  have h₂m : m₂.map (fun p => if p.1 = k then (k, v) else p) = m₂ := by
    conv_rhs => rw [← List.map_id m₂]
    apply List.map_congr_left
    intro p hp
    rw [if_neg (h₂ p hp)]
    rfl
  rw [h₁m, h₂m, if_pos rfl]

/-- The counting invariant of the second pass: group keys are unique, the
processed list is duplicate-free, every group's child keys are unique, child
keys are exactly the processed offsprings (counted with multiplicity), and
every recorded child carries no requirements or a single-element list. -/
def pickCountInv (acc : List (String × Group)) (processed : List String) : Prop :=
  (acc.map Prod.fst).Nodup ∧
  processed.Nodup ∧
  (∀ p ∈ acc, (p.2.children.map Prod.fst).Nodup) ∧
  (∀ p ∈ acc, ∀ sc ∈ p.2.children, sc.1 ∈ processed) ∧
  (∀ p ∈ acc, ∀ sc ∈ p.2.children,
    sc.2.requirements = none ∨ ∃ r, sc.2.requirements = some [r]) ∧
  (∀ x, (keyChildren acc).count x = processed.count x)

theorem pickCountInv_append (acc : List (String × Group)) (processed : List String)
    (pk e : String) (cd : ChildData) (parents : List String)
    (h : pickCountInv acc processed)
    (hkey : pk ∉ acc.map Prod.fst) (hnew : e ∉ processed)
    (hreq : cd.requirements = none ∨ ∃ r, cd.requirements = some [r]) :
    pickCountInv (acc ++ [(pk, Group.mk parents [(e, cd)])]) (processed ++ [e]) := by
  obtain ⟨h1, h2, h3, h4, h5, h6⟩ := h
  refine ⟨?_, ?_, ?_, ?_, ?_, ?_⟩
  · rw [List.map_append, List.nodup_append]
    refine ⟨h1, by simp, ?_⟩
    intro x hx hx1
    have : x = pk := by simpa using hx1
    exact hkey (this ▸ hx)
  · rw [List.nodup_append]
    refine ⟨h2, List.nodup_singleton e, ?_⟩
    intro x hx hx1
    have : x = e := by simpa using hx1
    exact hnew (this ▸ hx)
  · intro p hp
    rcases List.mem_append.mp hp with hpa | hpn
    · exact h3 p hpa
    · have : p = (pk, Group.mk parents [(e, cd)]) := by simpa using hpn
      rw [this]
      simp
  · intro p hp sc hsc
    rcases List.mem_append.mp hp with hpa | hpn
    · exact List.mem_append_left _ (h4 p hpa sc hsc)
    · have hpe : p = (pk, Group.mk parents [(e, cd)]) := by simpa using hpn
      rw [hpe] at hsc
      have : sc = (e, cd) := by simpa using hsc
      rw [this]
      simp
  · intro p hp sc hsc
    rcases List.mem_append.mp hp with hpa | hpn
    · exact h5 p hpa sc hsc
    · have hpe : p = (pk, Group.mk parents [(e, cd)]) := by simpa using hpn
      rw [hpe] at hsc
      have : sc = (e, cd) := by simpa using hsc
      rw [this]
      exact hreq
  · intro x
    rw [keyChildren_append, List.count_append, List.count_append, h6 x]
    have : keyChildren [(pk, Group.mk parents [(e, cd)])] = [e] := rfl
    rw [this]

theorem pickCountInv_update (m₁ m₂ : List (String × Group)) (processed : List String)
    (pk e : String) (gOld : Group) (cd : ChildData)
    (h : pickCountInv (m₁ ++ (pk, gOld) :: m₂) processed)
    (hnew : e ∉ processed)
    (hreq : cd.requirements = none ∨ ∃ r, cd.requirements = some [r]) :
    pickCountInv (m₁ ++ (pk, Group.mk gOld.parents (gOld.children ++ [(e, cd)])) :: m₂)
      (processed ++ [e]) := by
  obtain ⟨h1, h2, h3, h4, h5, h6⟩ := h
  have hmemOld : (pk, gOld) ∈ m₁ ++ (pk, gOld) :: m₂ := by simp
  have hchildNodup : (gOld.children.map Prod.fst).Nodup := h3 _ hmemOld
  have heNot : e ∉ gOld.children.map Prod.fst := by
    intro he
    rcases List.mem_map.mp he with ⟨sc, hsc, hsce⟩
    exact hnew (hsce ▸ h4 _ hmemOld sc hsc)
  refine ⟨?_, ?_, ?_, ?_, ?_, ?_⟩
  · simpa using h1
  · rw [List.nodup_append]
    refine ⟨h2, List.nodup_singleton e, ?_⟩
    intro x hx hx1
    have : x = e := by simpa using hx1
    exact hnew (this ▸ hx)
  · intro p hp
    rcases List.mem_append.mp hp with hpa | hpn
    · exact h3 p (List.mem_append_left _ hpa)
    · rcases List.mem_cons.mp hpn with rfl | hpm
      · dsimp only
        rw [List.map_append, List.nodup_append]
        refine ⟨hchildNodup, by simp, ?_⟩
        intro x hx hx1
        have : x = e := by simpa using hx1
        exact heNot (this ▸ hx)
      · exact h3 p (List.mem_append_right _ (List.mem_cons_of_mem _ hpm))
  · intro p hp sc hsc
    rcases List.mem_append.mp hp with hpa | hpn
    · exact List.mem_append_left _ (h4 p (List.mem_append_left _ hpa) sc hsc)
    · rcases List.mem_cons.mp hpn with rfl | hpm
      · dsimp only at hsc
        rcases List.mem_append.mp hsc with hso | hsn
        · exact List.mem_append_left _ (h4 _ hmemOld sc hso)
        · have : sc = (e, cd) := by simpa using hsn
          rw [this]
          simp
      · exact List.mem_append_left _
          (h4 p (List.mem_append_right _ (List.mem_cons_of_mem _ hpm)) sc hsc)
  · intro p hp sc hsc
    rcases List.mem_append.mp hp with hpa | hpn
    · exact h5 p (List.mem_append_left _ hpa) sc hsc
    · rcases List.mem_cons.mp hpn with rfl | hpm
      · dsimp only at hsc
        rcases List.mem_append.mp hsc with hso | hsn
        · exact h5 _ hmemOld sc hso
        · have : sc = (e, cd) := by simpa using hsn
          rw [this]
          exact hreq
      · exact h5 p (List.mem_append_right _ (List.mem_cons_of_mem _ hpm)) sc hsc
  · intro x
    have hold := h6 x
    rw [keyChildren_append, keyChildren_cons] at hold ⊢
    simp only [List.count_append] at hold ⊢
    rw [List.map_append, List.count_append]
    simp only [List.map_cons, List.map_nil]
    omega
theorem pickEntry_count_inv (depth : List (String × ℕ))
    (e : String × List SpCand) (st : List (String × Group) × List String)
    (h : pickCountInv st.1 st.2) :
    pickCountInv (pickEntry depth e st).1 (pickEntry depth e st).2 := by
  unfold pickEntry
  split
  · exact h
  · rename_i target htarget
    split
    · exact h
    · rename_i hncont
      split
      · exact h
      · rename_i c hc
        dsimp only
        have hne : e.1 ∉ st.2 := fun hmem => hncont (List.elem_iff.mpr hmem)
        have hreq : (ChildData.mk c.chance
            (if c.isConditional && c.requirement.isSome then
              some [c.requirement.getD {}] else none)).requirements = none ∨
            ∃ r, (ChildData.mk c.chance
              (if c.isConditional && c.requirement.isSome then
                some [c.requirement.getD {}] else none)).requirements = some [r] := by
          dsimp only
          split
          · exact Or.inr ⟨c.requirement.getD {}, rfl⟩
          · exact Or.inl rfl
        cases hget : assocGet st.1
            (joinPipe (jsSortStrings [c.parentA.getD "", c.parentB.getD ""])) with
        | none =>
          have hhas : assocHas st.1
              (joinPipe (jsSortStrings [c.parentA.getD "", c.parentB.getD ""])) = false := by
            rw [assocHas_false_iff]
            intro hmem
            have hs := assocGet_isSome_of_mem_keys st.1 _ hmem
            rw [hget] at hs
            cases hs
          have hset : assocSet st.1
              (joinPipe (jsSortStrings [c.parentA.getD "", c.parentB.getD ""]))
              (Group.mk (jsSortStrings [c.parentA.getD "", c.parentB.getD ""])
                [(e.1, ChildData.mk c.chance
                  (if c.isConditional && c.requirement.isSome then
                    some [c.requirement.getD {}] else none))]) =
              st.1 ++ [(joinPipe (jsSortStrings [c.parentA.getD "", c.parentB.getD ""]),
                Group.mk (jsSortStrings [c.parentA.getD "", c.parentB.getD ""])
                  [(e.1, ChildData.mk c.chance
                    (if c.isConditional && c.requirement.isSome then
                      some [c.requirement.getD {}] else none))])] := by
            unfold assocSet
            unfold assocHas at hhas
            rw [if_neg (by rw [hhas]; exact Bool.false_ne_true)]
          show pickCountInv
            (assocSet st.1 (joinPipe (jsSortStrings [c.parentA.getD "", c.parentB.getD ""]))
              (Group.mk (jsSortStrings [c.parentA.getD "", c.parentB.getD ""])
                [(e.1, ChildData.mk c.chance
                  (if c.isConditional && c.requirement.isSome then
                    some [c.requirement.getD {}] else none))]))
            (st.2 ++ [e.1])
          rw [hset]
          exact pickCountInv_append st.1 st.2 _ e.1 _ _ h
            ((assocHas_false_iff _ _).mp hhas) hne hreq
        | some gOld =>
          obtain ⟨m₁, m₂, hdec, hm₁⟩ := assocGet_split st.1 _ gOld hget
          have hm₂ : ∀ p ∈ m₂, p.1 ≠
              joinPipe (jsSortStrings [c.parentA.getD "", c.parentB.getD ""]) := by
            intro p hp hpe
            have h1 := h.1
            rw [hdec, List.map_append, List.map_cons, List.nodup_append] at h1
            have hk : p.1 ∈ (m₂.map Prod.fst) := List.mem_map.mpr ⟨p, hp, rfl⟩
            have := (List.nodup_cons.mp h1.2.1).1
            exact this (hpe ▸ hk)
          have hchild : assocHas gOld.children e.1 = false := by
            rw [assocHas_false_iff]
            intro hmem
            rcases List.mem_map.mp hmem with ⟨sc, hsc, hsce⟩
            exact hne (hsce ▸ h.2.2.2.1
              (joinPipe (jsSortStrings [c.parentA.getD "", c.parentB.getD ""]), gOld)
              (by rw [hdec]; simp) sc hsc)
          have hinner : assocSet gOld.children e.1
              (ChildData.mk c.chance
                (if c.isConditional && c.requirement.isSome then
                  some [c.requirement.getD {}] else none)) =
              gOld.children ++ [(e.1, ChildData.mk c.chance
                (if c.isConditional && c.requirement.isSome then
                  some [c.requirement.getD {}] else none))] := by
            unfold assocSet
            unfold assocHas at hchild
            rw [if_neg (by rw [hchild]; exact Bool.false_ne_true)]
          show pickCountInv
            (assocSet st.1 (joinPipe (jsSortStrings [c.parentA.getD "", c.parentB.getD ""]))
              (Group.mk gOld.parents (assocSet gOld.children e.1
                (ChildData.mk c.chance
                  (if c.isConditional && c.requirement.isSome then
                    some [c.requirement.getD {}] else none)))))
            (st.2 ++ [e.1])
          rw [hinner, hdec, assocSet_split m₁ m₂ _ gOld _ hm₁ hm₂]
          exact pickCountInv_update m₁ m₂ st.2 _ e.1 gOld _
            (hdec ▸ h) hne hreq

theorem shortestMutationsMap_count_inv (graph : List (String × List SpCand))
    (depth : List (String × ℕ)) :
    pickCountInv
      ((graph.foldl (fun st e => pickEntry depth e st) ([], [])).1)
      ((graph.foldl (fun st e => pickEntry depth e st) ([], [])).2) := by
  apply foldl_preserve_mem (fun st => pickCountInv st.1 st.2)
    (fun st e => pickEntry depth e st) graph
    (fun st e _ hst => pickEntry_count_inv depth e st hst) ([], [])
  refine ⟨List.nodup_nil, List.nodup_nil, ?_, ?_, ?_, fun x => rfl⟩
  · intro p hp
    cases hp
  · intro p hp
    cases hp
  · intro p hp
    cases hp

theorem pickEntry_processed_mono (depth : List (String × ℕ))
    (e : String × List SpCand) (st : List (String × Group) × List String)
    (x : String) (hx : x ∈ st.2) : x ∈ (pickEntry depth e st).2 := by
  unfold pickEntry
  split
  · exact hx
  · split
    · exact hx
    · split
      · exact hx
      · exact List.mem_append_left _ hx

theorem pickFold_processes (depth : List (String × ℕ))
    (l : List (String × List SpCand)) (st : List (String × Group) × List String)
    (ent : String × List SpCand) (hent : ent ∈ l) (target : ℕ)
    (htarget : assocGet depth ent.1 = some target)
    (c : SpCand) (hc : c ∈ ent.2) (d1 d2 : ℕ)
    (hA : depthGet depth c.parentA = some d1)
    (hB : depthGet depth c.parentB = some d2)
    (hmax : max d1 d2 + 1 = target) :
    ent.1 ∈ (l.foldl (fun st e => pickEntry depth e st) st).2 := by
  induction l generalizing st with
  | nil => cases hent
  | cons a t ih =>
    rw [List.foldl_cons]
    rcases List.mem_cons.mp hent with rfl | ht
    · have hmem : ent.1 ∈ (pickEntry depth ent st).2 := by
        unfold pickEntry
        rw [htarget]
        dsimp only
        by_cases hcont : st.2.contains ent.1 = true
        · rw [if_pos hcont]
          exact List.elem_iff.mp hcont
        · rw [if_neg hcont]
          cases hf : ent.2.find? (fun c =>
              match depthGet depth c.parentA, depthGet depth c.parentB with
              | some d1, some d2 => decide (max d1 d2 + 1 = target)
              | _, _ => false) with
          | none =>
            exfalso
            have := List.find?_eq_none.mp hf c hc
            rw [hA, hB] at this
            exact this (by simpa using hmax)
          | some c' =>
            dsimp only
            exact List.mem_append_right _ (List.mem_singleton.mpr rfl)
      exact foldl_preserve_mem (fun st => ent.1 ∈ st.2)
        (fun st e => pickEntry depth e st) t
        (fun st e _ hst => pickEntry_processed_mono depth e st ent.1 hst) _ hmem
    · exact ih _ ht
theorem foldl_parallel {α β γ : Type} (R : β → γ → Prop) (f : β → α → β)
    (g : γ → α → γ) (hstep : ∀ b c a, R b c → R (f b a) (g c a)) (l : List α)
    (b : β) (c : γ) (h : R b c) : R (l.foldl f b) (l.foldl g c) := by
  induction l generalizing b c with
  | nil => exact h
  | cons a t ih => exact ih _ _ (hstep b c a h)

/-- The keys of the mutation graph are exactly the offspring set. -/
theorem graph_offspring_keys (allMutations : List Group) (x : String) :
    x ∈ (buildMutationGraph allMutations).map Prod.fst ↔
      x ∈ offspringSet allMutations := by
  unfold buildMutationGraph offspringSet
  refine foldl_parallel
    (fun (gr : List (String × List SpCand)) (acc : List String) =>
      ∀ y, y ∈ gr.map Prod.fst ↔ y ∈ acc)
    _ _ ?_ allMutations [] [] (by simp) x
  intro gr acc grp hR
  dsimp only
  refine foldl_parallel
    (fun (gr2 : List (String × List SpCand)) (acc2 : List String) =>
      ∀ y, y ∈ gr2.map Prod.fst ↔ y ∈ acc2)
    _ _ ?_ grp.children gr acc hR
  intro gr2 acc2 sc hR2
  dsimp only
  intro y
  cases hh : assocHas gr2 sc.1 with
  | true =>
    have hmem : sc.1 ∈ acc2 := (hR2 sc.1).mp (by
      rcases List.any_eq_true.mp hh with ⟨p, hp, hpe⟩
      exact List.mem_map.mpr ⟨p, hp, by simpa using hpe⟩)
    have hcont : acc2.contains sc.1 = true := List.elem_iff.mpr hmem
    rw [if_pos hcont, if_pos (show (true : Bool) = true from rfl),
      assocSet_keys_of_has gr2 sc.1 _ hh]
    exact hR2 y
  | false =>
    have hnmem : sc.1 ∉ acc2 := by
      intro hm
      exact (assocHas_false_iff gr2 sc.1).mp hh ((hR2 sc.1).mpr hm)
    have hcont : acc2.contains sc.1 = false := by
      cases hcc : acc2.contains sc.1 with
      | false => rfl
      | true => exact absurd (List.elem_iff.mp hcc) hnmem
    rw [if_neg (show ¬((false : Bool) = true) from fun hc => Bool.noConfusion hc),
      if_neg (by rw [hcont]; exact Bool.false_ne_true)]
    have hhas1 : assocHas (gr2 ++ [(sc.1, [])]) sc.1 = true := by
      unfold assocHas
      rw [List.any_eq_true]
      exact ⟨(sc.1, []), by simp, by simp⟩
    rw [assocSet_keys_of_has _ _ _ hhas1, List.map_append]
    simp only [List.mem_append, List.map_cons, List.map_nil, List.mem_singleton]
    rw [hR2 y]

theorem baseBees_not_offspring (allBees : List String) (allMutations : List Group)
    (e : String) (he : e ∈ baseBees allBees allMutations) :
    e ∉ offspringSet allMutations := by
  unfold baseBees at he
  have hb := (List.mem_filter.mp he).2
  intro hm
  have hc : (offspringSet allMutations).contains e = true := List.elem_iff.mpr hm
  rw [hc] at hb
  cases hb

theorem cleanupGroup_keys_mem (g : Group) (k : String) :
    k ∈ (cleanupGroup g).children.map Prod.fst ↔ k ∈ g.children.map Prod.fst := by
  unfold cleanupGroup
  dsimp only
  rw [filterMap_keys (jsSortStrings (g.children.map Prod.fst))
    (fun k => assocGet g.children k)
    (fun k cd => if cd.requirements = some [] then { cd with requirements := none } else cd)]
  constructor
  · intro h
    rcases List.mem_filter.mp h with ⟨hmem, hsome⟩
    rcases Option.isSome_iff_exists.mp (by simpa using hsome) with ⟨v, hv⟩
    exact List.mem_map.mpr ⟨(k, v), assocGet_mem _ _ _ hv, rfl⟩
  · intro h
    apply List.mem_filter.mpr
    refine ⟨(mem_sortByLe jsStrLe _ _).mpr h, ?_⟩
    simpa using assocGet_isSome_of_mem_keys _ _ h

theorem cleanupGroup_count (g : Group) (h : (g.children.map Prod.fst).Nodup)
    (x : String) :
    ((cleanupGroup g).children.map Prod.fst).count x =
      (g.children.map Prod.fst).count x := by
  have hnd2 : ((cleanupGroup g).children.map Prod.fst).Nodup :=
    cleanupGroup_keys_nodup g h
  by_cases hx : x ∈ g.children.map Prod.fst
  · rw [List.count_eq_one_of_mem hnd2 ((cleanupGroup_keys_mem g x).mpr hx),
      List.count_eq_one_of_mem h hx]
  · rw [List.count_eq_zero.mpr (fun hc => hx ((cleanupGroup_keys_mem g x).mp hc)),
      List.count_eq_zero.mpr hx]

theorem cleanupGroup_req_source (g : Group) (sc : String × ChildData)
    (h : sc ∈ (cleanupGroup g).children) :
    ∃ cd0, (sc.1, cd0) ∈ g.children ∧
      (sc.2.requirements = cd0.requirements ∨ sc.2.requirements = none) := by
  unfold cleanupGroup at h
  dsimp only at h
  rcases List.mem_filterMap.mp h with ⟨k, hk, hmap⟩
  cases hget : assocGet g.children k with
  | none =>
    rw [hget] at hmap
    cases hmap
  | some cd =>
    rw [hget] at hmap
    injection hmap with h2
    subst h2
    refine ⟨cd, assocGet_mem _ _ _ hget, ?_⟩
    dsimp only
    split
    · exact Or.inr rfl
    · exact Or.inl rfl

theorem count_flatMap_congr {α : Type} (l : List α) (f g : α → List String)
    (x : String) (h : ∀ a ∈ l, (f a).count x = (g a).count x) :
    (l.flatMap f).count x = (l.flatMap g).count x := by
  induction l with
  | nil => rfl
  | cons a t ih =>
    rw [List.flatMap_cons, List.flatMap_cons, List.count_append, List.count_append,
      h a (List.mem_cons_self a t), ih (fun b hb => h b (List.mem_cons_of_mem a hb))]
/-- Claim C7: the shortest-path builder is total on arbitrary (disconnected or
cyclic) graphs; entities without an assigned depth never occur as an offspring
of the output; and every entity with an assigned depth that occurs as an
offspring of the input occurs as a child key of the output exactly once
(one group, one producing entry), its entry carrying either no requirements
or a single-element requirement list. -/
theorem c7_unreachable_and_unique (allBees : List String)
    (allMutations : List Group) :
    (∀ e, assocGet (computeBeeDepths allBees allMutations) e = none →
      ∀ g ∈ buildShortestPathMutations allBees allMutations,
        ∀ sc ∈ g.children, sc.1 ≠ e) ∧
    (∀ e, (assocGet (computeBeeDepths allBees allMutations) e).isSome = true →
      e ∈ offspringSet allMutations →
      ((buildShortestPathMutations allBees allMutations).flatMap
        (fun g => g.children.map Prod.fst)).count e = 1) ∧
    (∀ g ∈ buildShortestPathMutations allBees allMutations, ∀ sc ∈ g.children,
      sc.2.requirements = none ∨ ∃ r, sc.2.requirements = some [r]) := by
  have hga : ∀ e ∈ buildMutationGraph allMutations,
      assocGet (buildMutationGraph allMutations) e.1 = some e.2 :=
    fun e he => assocGet_of_nodup _ (buildMutationGraph_keys_nodup allMutations)
      e.1 e.2 he
  have hinv := shortestMutationsMap_count_inv (buildMutationGraph allMutations)
    (computeBeeDepths allBees allMutations)
  refine ⟨?_, ?_, ?_⟩
  · intro e he g hg sc hsc hsce
    rcases buildShortestPathMutations_source allBees allMutations g hg with
      ⟨g0, ⟨k, hk⟩, rfl⟩
    rcases cleanupGroup_child_source g0 sc hsc with ⟨cd0, hmem0, _⟩
    obtain ⟨target, ht, _⟩ :=
      (shortestMutationsMap_inv (buildMutationGraph allMutations)
        (computeBeeDepths allBees allMutations) hga).2 (k, g0) hk (sc.1, cd0) hmem0
    rw [hsce, he] at ht
    cases ht
  · intro e hsome hoff
    have hkeys : e ∈ (buildMutationGraph allMutations).map Prod.fst :=
      (graph_offspring_keys allMutations e).mpr hoff
    rcases List.mem_map.mp hkeys with ⟨p, hp, hpe⟩
    rcases Option.isSome_iff_exists.mp hsome with ⟨d, hd⟩
    rcases computeBeeDepths_inv allBees allMutations e d hd with
      ⟨hbase, _⟩ | ⟨cands, hcget, c, hcmem, d1, d2, hA, hB, hdd⟩
    · exact absurd hoff (baseBees_not_offspring allBees allMutations e hbase)
    · have hpget : assocGet (buildMutationGraph allMutations) e = some p.2 := by
        rw [← hpe]
        exact hga p hp
      have hcands : cands = p.2 := by
        rw [hpget] at hcget
        injection hcget with hx
        exact hx.symm
      have hproc : e ∈ ((buildMutationGraph allMutations).foldl
          (fun st e => pickEntry (computeBeeDepths allBees allMutations) e st)
          ([], [])).2 := by
        have hpp := pickFold_processes (computeBeeDepths allBees allMutations)
          (buildMutationGraph allMutations) ([], []) p hp d
          (by rw [hpe]; exact hd) c (by rw [← hcands]; exact hcmem)
          d1 d2 hA hB hdd.symm
        rw [hpe] at hpp
        exact hpp
      have hcount : (((buildMutationGraph allMutations).foldl
          (fun st e => pickEntry (computeBeeDepths allBees allMutations) e st)
          ([], [])).2).count e = 1 :=
        List.count_eq_one_of_mem hinv.2.1 hproc
      have hout : buildShortestPathMutations allBees allMutations =
          (sortByLe groupLe ((shortestMutationsMap (buildMutationGraph allMutations)
            (computeBeeDepths allBees allMutations)).map Prod.snd)).map
            cleanupGroup := rfl
      have e1 : ((buildShortestPathMutations allBees allMutations).flatMap
          (fun g => g.children.map Prod.fst)).count e =
          ((sortByLe groupLe ((shortestMutationsMap (buildMutationGraph allMutations)
            (computeBeeDepths allBees allMutations)).map Prod.snd)).flatMap
            (fun g => (cleanupGroup g).children.map Prod.fst)).count e := by
        rw [hout, List.flatMap_map]
      have e2 : ((sortByLe groupLe ((shortestMutationsMap
            (buildMutationGraph allMutations)
            (computeBeeDepths allBees allMutations)).map Prod.snd)).flatMap
            (fun g => (cleanupGroup g).children.map Prod.fst)).count e =
          (((shortestMutationsMap (buildMutationGraph allMutations)
            (computeBeeDepths allBees allMutations)).map Prod.snd).flatMap
            (fun g => (cleanupGroup g).children.map Prod.fst)).count e :=
        ((sortByLe_perm groupLe _).flatMap_right _).count_eq e
      have e3 : (((shortestMutationsMap (buildMutationGraph allMutations)
            (computeBeeDepths allBees allMutations)).map Prod.snd).flatMap
            (fun g => (cleanupGroup g).children.map Prod.fst)).count e =
          ((shortestMutationsMap (buildMutationGraph allMutations)
            (computeBeeDepths allBees allMutations)).flatMap
            (fun p => (cleanupGroup p.2).children.map Prod.fst)).count e := by
        rw [List.flatMap_map]
      have e4 : ((shortestMutationsMap (buildMutationGraph allMutations)
            (computeBeeDepths allBees allMutations)).flatMap
            (fun p => (cleanupGroup p.2).children.map Prod.fst)).count e =
          ((shortestMutationsMap (buildMutationGraph allMutations)
            (computeBeeDepths allBees allMutations)).flatMap
            (fun p => p.2.children.map Prod.fst)).count e :=
        count_flatMap_congr _ _ _ e
          (fun p hp2 => cleanupGroup_count p.2 (hinv.2.2.1 p hp2) e)
      exact e1.trans (e2.trans (e3.trans (e4.trans
        ((hinv.2.2.2.2.2 e).trans hcount))))
  · intro g hg sc hsc
    rcases buildShortestPathMutations_source allBees allMutations g hg with
      ⟨g0, ⟨k, hk⟩, rfl⟩
    rcases cleanupGroup_req_source g0 sc hsc with ⟨cd0, hmem0, hshape⟩
    have hcd0 := hinv.2.2.2.2.1 (k, g0) hk (sc.1, cd0) hmem0
    rcases hshape with heq | hnone
    · rw [heq]
      exact hcd0
    · exact Or.inl hnone

end McBee
